import Mathlib

/-!
# Flash configuration store of `go-mp3player` (`storage.go`)

A shallow embedding of the storage module: the block format, the CRC-64
checksum, the recovery scan `loadData` (two region probes and a binary search)
and the wear-levelling writer `storeData`, over a model of the raw block device
that records every operation and can inject I/O failures.
-/

namespace Storage

/-! ## Constants (`storage.go`, lines 47-54) -/

/-- Magic tag `FLASHSTR`. -/
def storeMagic : Nat := 0x464c415348535452
/-- Size of one block (slot) in bytes. -/
def storeBlockSize : Nat := 16 * 1024
/-- Size of one erase block (region) in bytes. -/
def eraseblockSize : Nat := 4 * 1024 * 1024
/-- Number of slots per region. -/
def blocksPerEraseblock : Nat := eraseblockSize / storeBlockSize
/-- Largest payload: a block minus its four 8-byte header fields. -/
def storeContentSize : Nat := storeBlockSize - 4 * 8

/-- Errors returned by the module: the two sentinels `errNoData` and `errTooBig`,
and the errors of the device operations, told apart by the operation that
failed. -/
inductive Err where
  | noData
  | tooBig
  | ioOpen
  | ioRead
  | ioDiscard
  | ioWrite
  | ioSync
  deriving DecidableEq, Repr

deriving instance DecidableEq for Except

/-! ## Byte buffers and the big-endian coder -/

/-- A byte buffer such as `tmpBlock`, as the map from index to byte. Only the
indices below the buffer length (`storeBlockSize`) are ever inspected. -/
abbrev Block := Nat → UInt8

/-- The `k`-th byte (0 = most significant) of the big-endian encoding of a
64-bit value: `byte(v >> (56 - 8k))`. -/
def beByte (v k : Nat) : UInt8 := UInt8.ofNat (v >>> (8 * (7 - k)))

/-- `binCoder.Uint64(b[off:])`: the eight bytes from `off` weighted by the powers
of 256, which is the value the shifts and ors of the big-endian coder build. -/
def beUint64 (b : Block) (off : Nat) : Nat :=
  (b off).toNat * 2 ^ 56 + (b (off + 1)).toNat * 2 ^ 48 + (b (off + 2)).toNat * 2 ^ 40
    + (b (off + 3)).toNat * 2 ^ 32 + (b (off + 4)).toNat * 2 ^ 24
    + (b (off + 5)).toNat * 2 ^ 16 + (b (off + 6)).toNat * 2 ^ 8 + (b (off + 7)).toNat

/-- `binCoder.PutUint64(b[off:], v)`. -/
def putUint64 (b : Block) (off v : Nat) : Block :=
  fun i => if off ≤ i ∧ i < off + 8 then beByte v (i - off) else b i

/-- `copy(b[off:], content)`. -/
def copyAt (b : Block) (off : Nat) (content : List UInt8) : Block :=
  fun i => if off ≤ i ∧ i < off + content.length then content.getD (i - off) 0 else b i

/-- The slice `b[off : off+n]` as a list of bytes. -/
def slice (b : Block) (off n : Nat) : List UInt8 :=
  (List.range n).map (fun i => b (off + i))

/-! ## CRC-64 (`hash/crc64` with the ECMA polynomial) -/

/-- The constant `crc64.ECMA`. -/
def crc64ECMA : Nat := 0xC96C5795D7870F42

/-- One entry of `crc64.MakeTable(crc64.ECMA)`: eight shift-and-reduce steps. -/
def crc64Table (i : Nat) : Nat :=
  (List.range 8).foldl
    (fun crc _ => if crc % 2 = 1 then (crc >>> 1) ^^^ crc64ECMA else crc >>> 1) i

/-- The update function of `hash/crc64`: complement, fold the bytes through the
table, complement. (The library processes long inputs eight bytes at a time
with derived tables; that computes the same function.) -/
def crc64Update (crc : Nat) (p : List UInt8) : Nat :=
  (p.foldl (fun c v => crc64Table ((c % 256) ^^^ v.toNat) ^^^ (c >>> 8))
    (crc ^^^ (2 ^ 64 - 1))) ^^^ (2 ^ 64 - 1)

/-- `calcBlockHash`: the CRC-64 of the big-endian sequence number followed by
the content. -/
def calcBlockHash (seq : Nat) (content : List UInt8) : Nat :=
  crc64Update (crc64Update 0 ((List.range 8).map (beByte seq))) content

/-- One iteration of the loop of `hash/crc64`:
`crc = tab[byte(crc)^v] ^ (crc >> 8)`. -/
def crc64Step (c : Nat) (v : UInt8) : Nat :=
  crc64Table ((c % 256) ^^^ v.toNat) ^^^ (c >>> 8)

/-- The CRC register after the bytes `l`, started from the all-ones register. -/
def crc64Fold (l : List UInt8) : Nat := l.foldl crc64Step (2 ^ 64 - 1)

/-! ## The raw block device -/

/-- The `storeBlockSize` bytes stored at `addr`, as a buffer. -/
def blockAt (mem : Nat → UInt8) (addr : Nat) : Block :=
  fun i => if i < storeBlockSize then mem (addr + i) else 0

/-- One operation issued to the block device. -/
inductive Op where
  | read (addr : Nat)
  | write (addr : Nat) (data : Block)
  | sync
  | discard (start length : Nat)

/-- The block device behind `storeFile`.

* `mem` is the byte stored at every address;
* `log` lists the operations issued so far, oldest first;
* `fault n = some m` makes the operation number `n` (counted from 0) fail; if
  that operation is a write, the first `m` bytes of the block (fewer than a
  whole block) still reach the device;
* `openErr` makes `os.OpenFile` fail;
* `discardZeroes` tells whether a discarded range reads back as zeroes or keeps
  its old bytes (`BLKDISCARD` is only a hint). -/
structure Device where
  mem : Nat → UInt8
  log : List Op
  fault : Nat → Option Nat
  openErr : Bool
  discardZeroes : Bool

namespace Device

/-- Append an operation to the log. -/
def record (d : Device) (op : Op) : Device := { d with log := d.log ++ [op] }

/-- The bytes of `data` laid over `mem` at `[addr, addr+n)`. -/
def overlay (mem : Nat → UInt8) (addr n : Nat) (data : Block) : Nat → UInt8 :=
  fun a => if addr ≤ a ∧ a < addr + n then data (a - addr) else mem a

/-- `storeFile.ReadAt(tmpBlock, addr)`: the `storeBlockSize` bytes at `addr`, or
an error. -/
def readAt (d : Device) (addr : Nat) : Option Block × Device :=
  match d.fault d.log.length with
  | none =>
    (some (blockAt d.mem addr), d.record (Op.read addr))
  | some _ => (none, d.record (Op.read addr))

/-- `storeFile.WriteAt(tmpBlock, addr)`; returns whether it succeeded. -/
def writeAt (d : Device) (data : Block) (addr : Nat) : Bool × Device :=
  match d.fault d.log.length with
  | none =>
    (true, { d with mem := overlay d.mem addr storeBlockSize data,
                    log := d.log ++ [Op.write addr data] })
  | some m =>
    (false, { d with mem := overlay d.mem addr (min m (storeBlockSize - 1)) data,
                     log := d.log ++ [Op.write addr data] })

/-- `storeFile.Sync()`; returns whether it succeeded. -/
def sync (d : Device) : Bool × Device :=
  match d.fault d.log.length with
  | none => (true, d.record Op.sync)
  | some _ => (false, d.record Op.sync)

end Device

/-- `ioctlBlkDiscard(fd, start, length)` on the device behind `fd`; returns
whether it succeeded. -/
def ioctlBlkDiscard (d : Device) (start length : Nat) : Bool × Device :=
  match d.fault d.log.length with
  | none =>
    (true, { d with
      mem := if d.discardZeroes then Device.overlay d.mem start length (fun _ => 0) else d.mem,
      log := d.log ++ [Op.discard start length] })
  | some _ => (false, d.record (Op.discard start length))

/-! ## Engine state (`storage.go`, lines 56-67) -/

/-- The package-level variables of the module together with the device.
`storeFile` tells whether the file handle is non-nil. `prevBlock` and
`prevEraseblock` are Go `int`s; they only ever hold `0..255` and `0..1`, and
are kept as natural numbers. `tmpBlock` is scratch space that every use
overwrites in full before reading it, so it is a local value here. -/
structure State where
  dev : Device
  storeFile : Bool
  prevSequence : Nat
  prevContent : List UInt8
  prevBlock : Nat
  prevEraseblock : Nat

/-- The state of a freshly started process on device `d`. -/
def fresh (d : Device) : State :=
  { dev := d, storeFile := false, prevSequence := 0, prevContent := [],
    prevBlock := blocksPerEraseblock - 1, prevEraseblock := 1 }

/-! ## Reading (`storage.go`, lines 86-155) -/

/-- `readBlockAt`: read the block at `addr`; if it carries the magic, a length
in range, a sequence number above `prevSequence` and a matching checksum, cache
its content and sequence number and report `found`. A nil file handle makes
`ReadAt` fail. -/
def readBlockAt (addr : Nat) (s : State) : Except Err Bool × State :=
  if s.storeFile = false then (.error .ioRead, s)
  else
    match s.dev.readAt addr with
    | (none, d) => (.error .ioRead, { s with dev := d })
    | (some tmpBlock, d) =>
      let s := { s with dev := d }
      let blockMagic := beUint64 tmpBlock (0 * 8)
      let blockLen := beUint64 tmpBlock (1 * 8)
      let blockHash := beUint64 tmpBlock (2 * 8)
      let blockSequence := beUint64 tmpBlock (3 * 8)
      if blockMagic ≠ storeMagic ∨ blockLen > storeContentSize
          ∨ blockSequence ≤ s.prevSequence then
        (.ok false, s)
      else
        let blockContent := slice tmpBlock (4 * 8) blockLen
        if blockHash ≠ calcBlockHash blockSequence blockContent then
          (.ok false, s)
        else
          (.ok true, { s with prevContent := blockContent, prevSequence := blockSequence })

/-- The first loop of `loadData`: probe slot 0 of region 0, then of region 1;
`eraseblock` is the last region whose slot 0 was found (`none` is `-1`). -/
def probeRegions (s : State) : Except Err (Option Nat) × State :=
  match readBlockAt (eraseblockSize * 0) s with
  | (.error e, s) => (.error e, s)
  | (.ok found0, s) =>
    let eraseblock : Option Nat := if found0 then some 0 else none
    match readBlockAt (eraseblockSize * 1) s with
    | (.error e, s) => (.error e, s)
    | (.ok found1, s) => (.ok (if found1 then some 1 else eraseblock), s)

/-- The second loop of `loadData`, `for low != high`, run for at most `fuel`
iterations; `none` when the fuel runs out before the loop exits. -/
def searchLoop (off : Nat) : Nat → Nat → Nat → State → Option (Except Err Nat × State)
  | 0, low, high, s => if low = high then some (.ok low, s) else none
  | fuel + 1, low, high, s =>
    if low = high then some (.ok low, s)
    else
      let mid := (low + high) / 2
      match readBlockAt (off + storeBlockSize * mid) s with
      | (.error e, s) => some (.error e, s)
      | (.ok true, s) => searchLoop off fuel (mid + 1) high s
      | (.ok false, s) => searchLoop off fuel low mid s

/-- `loadData`: open the device if needed, pick the active region, search the
last block in it, set the write cursor and return the cached content. The
search gets `blocksPerEraseblock` iterations of fuel. -/
def loadData (s : State) : Option (Except Err (List UInt8) × State) :=
  if s.storeFile = false ∧ s.dev.openErr = true then some (.error .ioOpen, s)
  else
    let s := { s with storeFile := true }
    match probeRegions s with
    | (.error e, s) => some (.error e, s)
    | (.ok none, s) => some (.error .noData, s)
    | (.ok (some eraseblock), s) =>
      let off := eraseblockSize * eraseblock
      match searchLoop off blocksPerEraseblock 1 blocksPerEraseblock s with
      | none => none
      | some (.error e, s) => some (.error e, s)
      | some (.ok low, s) =>
        some (.ok s.prevContent, { s with prevBlock := low - 1, prevEraseblock := eraseblock })

/-! ## Writing (`storage.go`, lines 157-198) -/

/-- The block `storeData` builds in `tmpBlock`: zeroes, then magic, length,
checksum and sequence number, then the content. -/
def encodeBlock (seq : Nat) (content : List UInt8) : Block :=
  let b : Block := fun _ => 0
  let b := putUint64 b (0 * 8) storeMagic
  let b := putUint64 b (1 * 8) content.length
  let b := putUint64 b (2 * 8) (calcBlockHash seq content)
  let b := putUint64 b (3 * 8) seq
  copyAt b (4 * 8) content

/-- The region switch of `storeData` (lines 169-175): at the end of a region,
move to slot 0 of the other region and discard it. -/
def rotate (s : State) : Option Err × State :=
  if s.prevBlock ≥ blocksPerEraseblock then
    let s := { s with prevBlock := 0, prevEraseblock := 1 - s.prevEraseblock }
    if s.storeFile = false then (some .ioDiscard, s)
    else
      match ioctlBlkDiscard s.dev (s.prevEraseblock * eraseblockSize) eraseblockSize with
      | (false, d) => (some .ioDiscard, { s with dev := d })
      | (true, d) => (none, { s with dev := d })
  else (none, s)

/-- `storeData`; the result is the returned `error`, `none` for `nil`. -/
def storeData (content : List UInt8) (s : State) : Option Err × State :=
  if content.length > storeContentSize then (some .tooBig, s)
  else if content = s.prevContent then (none, s)
  else
    let s := { s with prevSequence := (s.prevSequence + 1) % 2 ^ 64 }
    let s := { s with prevBlock := s.prevBlock + 1 }
    match rotate s with
    | (some e, s) => (some e, s)
    | (none, s) =>
      let tmpBlock := encodeBlock s.prevSequence content
      let addr := s.prevEraseblock * eraseblockSize + s.prevBlock * storeBlockSize
      if s.storeFile = false then (some .ioWrite, s)
      else
        match s.dev.writeAt tmpBlock addr with
        | (false, d) => (some .ioWrite, { s with dev := d })
        | (true, d) =>
          match d.sync with
          | (false, d) => (some .ioSync, { s with dev := d })
          | (true, d) => (none, { s with dev := d, prevContent := content })

/-- The all-zero memory of a device that was never written. -/
def zeroMem : Nat → UInt8 := fun _ => 0

/-- A device that never fails, with the given memory and an empty log. -/
def goodDevice (mem : Nat → UInt8) (dz : Bool) : Device :=
  { mem := mem, log := [], fault := fun _ => none, openErr := false, discardZeroes := dz }

/-! ## Block fields and validity -/

/-- Magic field of a block. -/
def blkMagic (b : Block) : Nat := beUint64 b (0 * 8)
/-- Length field of a block. -/
def blkLen (b : Block) : Nat := beUint64 b (1 * 8)
/-- Checksum field of a block. -/
def blkHash (b : Block) : Nat := beUint64 b (2 * 8)
/-- Sequence field of a block. -/
def blkSeq (b : Block) : Nat := beUint64 b (3 * 8)
/-- Content of a block: `blkLen` bytes after the header. -/
def blkContent (b : Block) : List UInt8 := slice b (4 * 8) (blkLen b)

/-- A block is valid when its magic matches, its length is in range and its
checksum matches the one recomputed over its sequence number and content. -/
def ValidBlock (b : Block) : Prop :=
  blkMagic b = storeMagic ∧ blkLen b ≤ storeContentSize
    ∧ blkHash b = calcBlockHash (blkSeq b) (blkContent b)

instance (b : Block) : Decidable (ValidBlock b) := by
  unfold ValidBlock; infer_instance

/-- The test of `readBlockAt`: a valid block whose sequence number is above `q`. -/
def Accepts (b : Block) (q : Nat) : Prop := ValidBlock b ∧ q < blkSeq b

instance (b : Block) (q : Nat) : Decidable (Accepts b q) := by
  unfold Accepts; infer_instance

/-- Address of slot `j` of region `r`. -/
def slotAddr (r j : Nat) : Nat := eraseblockSize * r + storeBlockSize * j

/-- The block stored in slot `j` of region `r`. -/
def slotBlock (mem : Nat → UInt8) (r j : Nat) : Block := blockAt mem (slotAddr r j)

/-! ## Vocabulary of the theorems -/

/-- A device on which opening and every operation succeeds. -/
def Device.Reliable (d : Device) : Prop := d.openErr = false ∧ ∀ n, d.fault n = none

/-- The state after a successful `ReadAt` at `addr`: the read is logged. -/
def State.afterRead (s : State) (addr : Nat) : State :=
  { s with dev := s.dev.record (Op.read addr) }

/-- The state after `readBlockAt` has accepted block `b`. -/
def State.cache (s : State) (b : Block) : State :=
  { s with prevContent := blkContent b, prevSequence := blkSeq b }

/-- The step from `s` to `t` issued nothing but reads: memory, fault plan,
file handle and write cursor are the same and the log grew by reads only. -/
structure ReadsOnly (s t : State) : Prop where
  mem : t.dev.mem = s.dev.mem
  fault : t.dev.fault = s.dev.fault
  openErr : t.dev.openErr = s.dev.openErr
  discardZeroes : t.dev.discardZeroes = s.dev.discardZeroes
  storeFile : t.storeFile = s.storeFile
  prevBlock : t.prevBlock = s.prevBlock
  prevEraseblock : t.prevEraseblock = s.prevEraseblock
  log : ∃ l, t.dev.log = s.dev.log ++ l ∧ ∀ op ∈ l, ∃ a, op = Op.read a

/-- Number of block writes in a log. -/
def countWrites : List Op → Nat
  | [] => 0
  | Op.write _ _ :: l => countWrites l + 1
  | _ :: l => countWrites l

/-- Sequence numbers of the blocks written in a log, oldest first. -/
def writtenSeqs : List Op → List Nat
  | [] => []
  | Op.write _ b :: l => blkSeq b :: writtenSeqs l
  | _ :: l => writtenSeqs l

/-- The write cursor after `storeData` has advanced it (lines 168-171). -/
def advance (prevBlock prevEraseblock : Nat) : Nat × Nat :=
  if prevBlock + 1 ≥ blocksPerEraseblock then (0, 1 - prevEraseblock)
  else (prevBlock + 1, prevEraseblock)

/-- A started process on device `d` before any block was found: the fresh
state with the file handle open. -/
def opened (d : Device) : State := { fresh d with storeFile := true }

/-- A device with all-zero memory whose first operation fails. -/
def firstOpFails : Device :=
  { mem := zeroMem, log := [], fault := fun n => if n = 0 then some 0 else none,
    openErr := false, discardZeroes := true }

/-- A payload one byte longer than `storeContentSize`. -/
def tooLong : List UInt8 := List.replicate (storeContentSize + 1) 0

/-- The state after a run of `storeData` calls. -/
def storeAll (s : State) : List (List UInt8) → State
  | [] => s
  | p :: ps => storeAll (storeData p s).2 ps

/-- The errors returned by a run of `storeData` calls, in order. -/
def storeResults (s : State) : List (List UInt8) → List (Option Err)
  | [] => []
  | p :: ps => (storeData p s).1 :: storeResults (storeData p s).2 ps

/-- The state `loadData` leaves when started fresh on device `d`. -/
def loadedState (d : Device) : State :=
  match loadData (fresh d) with
  | some r => r.2
  | none => fresh d

/-- A device with all-zero memory whose third operation fails. -/
def thirdOpFails : Device :=
  { mem := zeroMem, log := [], fault := fun n => if n = 2 then some 0 else none,
    openErr := false, discardZeroes := true }

/-- The state a successful `storeData p` leaves on a working device when `p`
fits and differs from the cached content: the region is switched and discarded
if the cursor was at the end, the block is written at the new cursor and
synced, and the cache is updated. -/
def State.stored (s : State) (p : List UInt8) : State :=
  let q := (s.prevSequence + 1) % 2 ^ 64
  let c := advance s.prevBlock s.prevEraseblock
  let addr := c.2 * eraseblockSize + c.1 * storeBlockSize
  if s.prevBlock + 1 ≥ blocksPerEraseblock then
    { dev := { s.dev with
        mem := Device.overlay
          (if s.dev.discardZeroes then
            Device.overlay s.dev.mem (c.2 * eraseblockSize) eraseblockSize (fun _ => 0)
           else s.dev.mem)
          addr storeBlockSize (encodeBlock q p)
        log := s.dev.log ++ [Op.discard (c.2 * eraseblockSize) eraseblockSize,
          Op.write addr (encodeBlock q p), Op.sync] }
      storeFile := s.storeFile, prevSequence := q, prevContent := p
      prevBlock := c.1, prevEraseblock := c.2 }
  else
    { dev := { s.dev with
        mem := Device.overlay s.dev.mem addr storeBlockSize (encodeBlock q p)
        log := s.dev.log ++ [Op.write addr (encodeBlock q p), Op.sync] }
      storeFile := s.storeFile, prevSequence := q, prevContent := p
      prevBlock := c.1, prevEraseblock := c.2 }

/-- A device image whose only block, in slot 0 of region 0, is well formed but
carries sequence number 0. -/
def seqZeroMem : Nat → UInt8 :=
  Device.overlay zeroMem (slotAddr 0 0) storeBlockSize (encodeBlock 0 [])

/-- A device image with two blocks in region 0: sequence 1 in slot 0 and
sequence 2 in slot 1. -/
def twoBlocksMem : Nat → UInt8 :=
  Device.overlay
    (Device.overlay zeroMem (slotAddr 0 0) storeBlockSize (encodeBlock 1 [10]))
    (slotAddr 0 1) storeBlockSize (encodeBlock 2 [20])

/-- The slots probed by the binary search of `loadData` when exactly the slots
below `k` are found: the probe path towards boundary `k`. -/
def probePath (k : Nat) : Nat → Nat → Nat → List Nat
  | 0, _, _ => []
  | fuel + 1, low, high =>
    if low = high then []
    else
      (low + high) / 2 ::
        (if (low + high) / 2 < k then probePath k fuel ((low + high) / 2 + 1) high
          else probePath k fuel low ((low + high) / 2))

/-- The block with sequence number 2 and content `[20]` after its content byte
was changed to `21`: the checksum no longer matches. -/
def corruptBlock : Block := copyAt (encodeBlock 2 [20]) (4 * 8) [21]

/-- A device image with three blocks in region 0, sequence numbers 1, 2, 3, of
which the middle one is corrupted. -/
def corruptMiddleMem : Nat → UInt8 :=
  Device.overlay
    (Device.overlay
      (Device.overlay zeroMem (slotAddr 0 0) storeBlockSize (encodeBlock 1 [10]))
      (slotAddr 0 1) storeBlockSize corruptBlock)
    (slotAddr 0 2) storeBlockSize (encodeBlock 3 [30])

/-- A block of which only the first `n` bytes reached an erased (all-zero)
slot: a torn write. -/
def torn (n : Nat) (b : Block) : Block := fun i => if i < n then b i else 0

/-- A payload whose bits are a multiple of the CRC-64 generator polynomial: its
checksum equals that of nine zero bytes. -/
def collidingPayload : List UInt8 := [133, 30, 14, 175, 43, 175, 216, 146, 1]

/-- A device image with a block of sequence 1 in slot 0 of region 0 and, in
slot 1, the block of sequence 2 with payload `collidingPayload` torn after its
32 header bytes. -/
def tornMem : Nat → UInt8 :=
  Device.overlay
    (Device.overlay zeroMem (slotAddr 0 0) storeBlockSize (encodeBlock 1 [10]))
    (slotAddr 0 1) storeBlockSize (torn 32 (encodeBlock 2 collidingPayload))

/-- A device image with a block of sequence 1 in slot 0 of region 0 and, in
slot 1, the block of sequence 2 with payload `[20]` torn after 20 bytes. -/
def tornEarlyMem : Nat → UInt8 :=
  Device.overlay
    (Device.overlay zeroMem (slotAddr 0 0) storeBlockSize (encodeBlock 1 [10]))
    (slotAddr 0 1) storeBlockSize (torn 20 (encodeBlock 2 [20]))

/-- A device image with a block of sequence 1 in slot 0 of region 0 and, in
slot 1, the block of sequence 2 with payload `[20, 21, 22]` torn after 33
bytes: the header and the first content byte arrived, two content bytes are
lost. -/
def tornTailMem : Nat → UInt8 :=
  Device.overlay
    (Device.overlay zeroMem (slotAddr 0 0) storeBlockSize (encodeBlock 1 [10]))
    (slotAddr 0 1) storeBlockSize (torn 33 (encodeBlock 2 [20, 21, 22]))

/-! ## The invariant linking the engine state to the device image -/

/-- Nothing was ever stored: the engine is in its fresh state (with the file
open) and `readBlockAt` would accept no slot of the device. -/
structure Virgin (s : State) : Prop where
  storeFile : s.storeFile = true
  seq : s.prevSequence = 0
  content : s.prevContent = []
  block : s.prevBlock = blocksPerEraseblock - 1
  region : s.prevEraseblock = 1
  empty : ∀ r j, j < blocksPerEraseblock → ¬ Accepts (slotBlock s.dev.mem r j) 0

/-- At least one block was stored: slots `0..prevBlock` of region
`prevEraseblock` hold valid blocks with consecutive sequence numbers ending in
`prevSequence`, the last of them holds `prevContent`, and no other slot carries
a sequence number that `readBlockAt` would accept after slot 0 of that region. -/
structure Written (s : State) : Prop where
  storeFile : s.storeFile = true
  region : s.prevEraseblock ≤ 1
  block : s.prevBlock < blocksPerEraseblock
  seqLow : s.prevBlock + 1 ≤ s.prevSequence
  seqHigh : s.prevSequence < 2 ^ 64
  valid : ∀ i, i ≤ s.prevBlock → ValidBlock (slotBlock s.dev.mem s.prevEraseblock i)
  seq : ∀ i, i ≤ s.prevBlock →
    blkSeq (slotBlock s.dev.mem s.prevEraseblock i) = s.prevSequence - s.prevBlock + i
  content : blkContent (slotBlock s.dev.mem s.prevEraseblock s.prevBlock) = s.prevContent
  later : ∀ j, s.prevBlock < j → j < blocksPerEraseblock →
    ¬ Accepts (slotBlock s.dev.mem s.prevEraseblock j) (s.prevSequence - s.prevBlock)
  other : ∀ j, j < blocksPerEraseblock →
    ¬ Accepts (slotBlock s.dev.mem (1 - s.prevEraseblock) j)
      (s.prevSequence - s.prevBlock - 1)

/-- Every payload of the list fits and differs from the one before it, the
first one from `prev`: each `storeData` of the run changes the payload. -/
def Changing (prev : List UInt8) : List (List UInt8) → Prop
  | [] => True
  | p :: ps => p ≠ prev ∧ p.length ≤ storeContentSize ∧ Changing p ps

/-- The last payload of a run, or `prev` for an empty run. -/
def lastOf (prev : List UInt8) : List (List UInt8) → List UInt8
  | [] => prev
  | p :: ps => lastOf p ps

instance Changing.decide : ∀ (prev : List UInt8) (ps : List (List UInt8)),
    Decidable (Changing prev ps)
  | _, [] => isTrue trivial
  | prev, p :: ps =>
    have := Changing.decide p ps
    by unfold Changing; infer_instance

/-- 256 payloads, each different from the one before: `[0, 1], [1, 1], ...`. -/
def fillPayloads : List (List UInt8) :=
  (List.range 256).map (fun i => [UInt8.ofNat i, 1])

/-! # Theorems -/

/-! ## Lemmas on the coder -/

theorem beByte_toNat (v k : Nat) : (beByte v k).toNat = v / 2 ^ (8 * (7 - k)) % 256 := by
  simp [beByte, UInt8.toNat, UInt8.ofNat, Fin.ofNat, Nat.shiftRight_eq_div_pow]

theorem uint8_toNat_lt (x : UInt8) : x.toNat < 256 := x.val.isLt

theorem beUint64_congr (b c : Block) (off : Nat)
    (h : ∀ i, off ≤ i → i < off + 8 → b i = c i) : beUint64 b off = beUint64 c off := by
  simp only [beUint64]
  rw [h off (by omega) (by omega), h (off + 1) (by omega) (by omega),
    h (off + 2) (by omega) (by omega), h (off + 3) (by omega) (by omega),
    h (off + 4) (by omega) (by omega), h (off + 5) (by omega) (by omega),
    h (off + 6) (by omega) (by omega), h (off + 7) (by omega) (by omega)]

theorem beUint64_putUint64_self (b : Block) (off v : Nat) :
    beUint64 (putUint64 b off v) off = v % 2 ^ 64 := by
  simp only [beUint64, putUint64]
  simp [beByte_toNat]
  omega

theorem beUint64_putUint64_other (b : Block) (off off2 v : Nat)
    (h : off2 + 8 ≤ off ∨ off + 8 ≤ off2) :
    beUint64 (putUint64 b off v) off2 = beUint64 b off2 := by
  apply beUint64_congr
  intro i h1 h2
  have : ¬ (off ≤ i ∧ i < off + 8) := by omega
  simp [putUint64, this]

theorem beUint64_copyAt (b : Block) (off off2 : Nat) (c : List UInt8) (h : off2 + 8 ≤ off) :
    beUint64 (copyAt b off c) off2 = beUint64 b off2 := by
  apply beUint64_congr
  intro i h1 h2
  have : ¬ (off ≤ i ∧ i < off + c.length) := by omega
  simp [copyAt, this]

theorem slice_copyAt (b : Block) (off : Nat) (c : List UInt8) :
    slice (copyAt b off c) off c.length = c := by
  apply List.ext_getElem
  · simp [slice]
  · intro i h1 h2
    simp only [slice, List.getElem_map, List.getElem_range, copyAt]
    have : off ≤ off + i ∧ off + i < off + c.length := by omega
    simp [this, List.getD_eq_getElem, h2]

/-! ## Lemmas on the checksum -/

theorem crc64Table_lt (i : Nat) (h : i < 2 ^ 64) : crc64Table i < 2 ^ 64 := by
  unfold crc64Table
  generalize List.range 8 = l
  induction l generalizing i with
  | nil => simpa using h
  | cons a l ih =>
    simp only [List.foldl_cons]
    apply ih
    have hs : i >>> 1 < 2 ^ 64 := by
      rw [Nat.shiftRight_eq_div_pow]; omega
    split
    · exact Nat.xor_lt_two_pow hs (by decide)
    · exact hs

theorem crc64Update_lt (crc : Nat) (p : List UInt8) (h : crc < 2 ^ 64) :
    crc64Update crc p < 2 ^ 64 := by
  unfold crc64Update
  apply Nat.xor_lt_two_pow _ (by decide)
  have h0 : crc ^^^ (2 ^ 64 - 1) < 2 ^ 64 := Nat.xor_lt_two_pow h (by decide)
  generalize crc ^^^ (2 ^ 64 - 1) = c at h0
  induction p generalizing c with
  | nil => simpa using h0
  | cons a l ih =>
    simp only [List.foldl_cons]
    apply ih
    apply Nat.xor_lt_two_pow
    · apply crc64Table_lt
      have h1 : c % 256 < 2 ^ 8 := by omega
      have h2 : a.toNat < 2 ^ 8 := uint8_toNat_lt a
      have := Nat.xor_lt_two_pow h1 h2
      omega
    · rw [Nat.shiftRight_eq_div_pow]; omega

theorem calcBlockHash_lt (seq : Nat) (content : List UInt8) :
    calcBlockHash seq content < 2 ^ 64 :=
  crc64Update_lt _ _ (crc64Update_lt _ _ (by decide))

/-! ## CRC-64 tells apart messages that differ in their last eight bytes -/

theorem shiftRight_xor (a b n : Nat) : (a ^^^ b) >>> n = a >>> n ^^^ b >>> n := by
  apply Nat.eq_of_testBit_eq
  intro i
  simp [Nat.testBit_shiftRight, Nat.testBit_xor]

theorem xor_cancel (a b : Nat) : (a ^^^ b) ^^^ b = a := by
  rw [Nat.xor_assoc, Nat.xor_self, Nat.xor_zero]

theorem crc64Bit_xor (a b : Nat) :
    (if (a ^^^ b) % 2 = 1 then ((a ^^^ b) >>> 1) ^^^ crc64ECMA else (a ^^^ b) >>> 1)
      = (if a % 2 = 1 then (a >>> 1) ^^^ crc64ECMA else a >>> 1)
        ^^^ (if b % 2 = 1 then (b >>> 1) ^^^ crc64ECMA else b >>> 1) := by
  have hm : (a ^^^ b) % 2 = (a + b) % 2 := Nat.xor_mod_two_eq
  rw [shiftRight_xor]
  rcases Nat.mod_two_eq_zero_or_one a with ha | ha <;>
    rcases Nat.mod_two_eq_zero_or_one b with hb | hb
  · have : (a ^^^ b) % 2 = 0 := by omega
    simp [ha, hb, this]
  · have : (a ^^^ b) % 2 = 1 := by omega
    simp [ha, hb, this, Nat.xor_assoc]
  · have : (a ^^^ b) % 2 = 1 := by omega
    simp only [ha, hb, this, if_true]
    simp only [Nat.zero_ne_one, if_false]
    rw [Nat.xor_assoc, Nat.xor_assoc, Nat.xor_comm crc64ECMA]
  · have : (a ^^^ b) % 2 = 0 := by omega
    simp only [ha, hb, this, if_true]
    simp only [Nat.zero_ne_one, if_false]
    rw [Nat.xor_assoc, ← Nat.xor_assoc crc64ECMA, Nat.xor_comm crc64ECMA (b >>> 1),
      Nat.xor_assoc (b >>> 1), Nat.xor_self, Nat.xor_zero]

theorem crc64Table_xor (a b : Nat) :
    crc64Table (a ^^^ b) = crc64Table a ^^^ crc64Table b := by
  unfold crc64Table
  generalize List.range 8 = l
  induction l generalizing a b with
  | nil => rfl
  | cons x l ih =>
    simp only [List.foldl_cons]
    rw [crc64Bit_xor, ih]

theorem crc64Table_top_zero : ∀ k < 256, crc64Table k >>> 56 = 0 → k = 0 := by
  decide!

theorem crc64Table_top_inj (i j : Nat) (hi : i < 256) (hj : j < 256)
    (h : crc64Table i >>> 56 = crc64Table j >>> 56) : i = j := by
  have h1 : crc64Table (i ^^^ j) >>> 56 = 0 := by
    rw [crc64Table_xor, shiftRight_xor, h, Nat.xor_self]
  have h2 : i ^^^ j < 2 ^ 8 := Nat.xor_lt_two_pow hi hj
  have h3 := crc64Table_top_zero (i ^^^ j) h2 h1
  have h4 : (i ^^^ j) ^^^ j = i := xor_cancel i j
  rw [h3, Nat.zero_xor] at h4
  exact h4.symm

theorem crc64Step_lt (c : Nat) (v : UInt8) (hc : c < 2 ^ 64) : crc64Step c v < 2 ^ 64 := by
  apply Nat.xor_lt_two_pow
  · apply crc64Table_lt
    have h1 : c % 256 < 2 ^ 8 := by omega
    have h2 : v.toNat < 2 ^ 8 := uint8_toNat_lt v
    have := Nat.xor_lt_two_pow h1 h2
    omega
  · rw [Nat.shiftRight_eq_div_pow]; omega

theorem crc64Steps_lt (l : List UInt8) (c : Nat) (hc : c < 2 ^ 64) :
    l.foldl crc64Step c < 2 ^ 64 := by
  induction l generalizing c with
  | nil => simpa using hc
  | cons a l ih => exact ih _ (crc64Step_lt c a hc)

/-- Going one step back: if the registers after a step agree from bit `8m` up
(`m ≤ 7`), the table indices of the step were equal and the registers before
the step agree from bit `8(m+1)` up. -/
theorem crc64Step_back (c d : Nat) (v w : UInt8) (m : Nat) (hc : c < 2 ^ 64)
    (hd : d < 2 ^ 64) (hm : m ≤ 7)
    (h : crc64Step c v >>> (8 * m) = crc64Step d w >>> (8 * m)) :
    (c % 256) ^^^ v.toNat = (d % 256) ^^^ w.toNat
      ∧ c >>> (8 * (m + 1)) = d >>> (8 * (m + 1)) := by
  have hi : (c % 256) ^^^ v.toNat < 256 :=
    Nat.xor_lt_two_pow (n := 8) (by omega) (uint8_toNat_lt v)
  have hj : (d % 256) ^^^ w.toNat < 256 :=
    Nat.xor_lt_two_pow (n := 8) (by omega) (uint8_toNat_lt w)
  have htop : ∀ (x : Nat) (u : UInt8), x < 2 ^ 64 →
      crc64Step x u >>> 56 = crc64Table ((x % 256) ^^^ u.toNat) >>> 56 := by
    intro x u hx
    have h0 : x >>> 8 >>> 56 = 0 := by
      rw [← Nat.shiftRight_add, Nat.shiftRight_eq_div_pow]
      exact Nat.div_eq_of_lt (by omega)
    rw [crc64Step, shiftRight_xor, h0, Nat.xor_zero]
  have h56 : crc64Step c v >>> 56 = crc64Step d w >>> 56 := by
    have e : 56 = 8 * m + (56 - 8 * m) := by omega
    rw [e, Nat.shiftRight_add, Nat.shiftRight_add, h]
  rw [htop c v hc, htop d w hd] at h56
  have hidx := crc64Table_top_inj _ _ hi hj h56
  refine ⟨hidx, ?_⟩
  have e : 8 * (m + 1) = 8 + 8 * m := by omega
  rw [e, Nat.shiftRight_add, Nat.shiftRight_add]
  have hx : ∀ (x : Nat) (u : UInt8), x >>> 8 >>> (8 * m)
      = crc64Step x u >>> (8 * m) ^^^ crc64Table ((x % 256) ^^^ u.toNat) >>> (8 * m) := by
    intro x u
    rw [← shiftRight_xor, crc64Step, Nat.xor_comm (crc64Table _), xor_cancel]
  rw [hx c v, hx d w, h, hidx]

/-- Two runs of at most eight steps: if the final registers agree from bit `8j`
up, the start registers agree from bit `8(j + length)` up, and from equal start
registers the byte strings are equal. -/
theorem crc64Steps_inj (w : List UInt8) : ∀ (w2 : List UInt8) (c d j : Nat),
    w.length = w2.length → c < 2 ^ 64 → d < 2 ^ 64 → w.length + j ≤ 8 →
    w.foldl crc64Step c >>> (8 * j) = w2.foldl crc64Step d >>> (8 * j) →
    c >>> (8 * (j + w.length)) = d >>> (8 * (j + w.length)) ∧ (c = d → w = w2) := by
  induction w with
  | nil =>
    intro w2 c d j hl _ _ _ h
    have : w2 = [] := List.length_eq_zero.mp hl.symm
    subst this
    exact ⟨by simpa using h, fun _ => rfl⟩
  | cons v w ih =>
    intro w2 c d j hl hc hd hj h
    cases w2 with
    | nil => simp at hl
    | cons v2 w2 =>
      simp only [List.length_cons, Nat.add_right_cancel_iff] at hl
      simp only [List.length_cons] at hj
      simp only [List.foldl_cons] at h
      obtain ⟨h1, h2⟩ := ih w2 (crc64Step c v) (crc64Step d v2) j hl
        (crc64Step_lt c v hc) (crc64Step_lt d v2 hd) (by omega) h
      obtain ⟨hidx, hsh⟩ := crc64Step_back c d v v2 (j + w.length) hc hd (by omega) h1
      refine ⟨by simpa [List.length_cons, Nat.add_assoc] using hsh, ?_⟩
      intro hcd
      subst hcd
      have hv : v.toNat = v2.toNat := by
        have := congrArg (fun x => (c % 256) ^^^ x) hidx
        simp only [← Nat.xor_assoc, Nat.xor_self, Nat.zero_xor] at this
        exact this
      have hvv : v = v2 := UInt8.ext hv
      subst hvv
      rw [h2 rfl]

/-- Messages with a common beginning whose (equally long) endings of at most
eight bytes differ leave different CRC registers. -/
theorem crc64Fold_tail_inj (p w w2 : List UInt8) (hl : w.length = w2.length)
    (h8 : w.length ≤ 8) (h : crc64Fold (p ++ w) = crc64Fold (p ++ w2)) : w = w2 := by
  simp only [crc64Fold, List.foldl_append] at h
  have hc := crc64Steps_lt p (2 ^ 64 - 1) (by decide)
  exact (crc64Steps_inj w w2 _ _ 0 hl hc hc (by omega) (by simpa using h)).2 rfl

theorem crc64Update_fold (c : Nat) (l : List UInt8) :
    crc64Update c l = l.foldl crc64Step (c ^^^ (2 ^ 64 - 1)) ^^^ (2 ^ 64 - 1) := rfl

theorem calcBlockHash_fold (seq : Nat) (content : List UInt8) :
    calcBlockHash seq content
      = crc64Fold ((List.range 8).map (beByte seq) ++ content) ^^^ (2 ^ 64 - 1) := by
  simp only [calcBlockHash, crc64Update_fold, crc64Fold, List.foldl_append, xor_cancel]
  rfl

/-! ## Lemmas on the block built by `storeData` -/

theorem encodeBlock_magic (q : Nat) (p : List UInt8) :
    blkMagic (encodeBlock q p) = storeMagic := by
  simp only [blkMagic, encodeBlock]
  rw [beUint64_copyAt _ _ _ _ (by omega), beUint64_putUint64_other _ _ _ _ (by omega),
    beUint64_putUint64_other _ _ _ _ (by omega), beUint64_putUint64_other _ _ _ _ (by omega),
    beUint64_putUint64_self]
  decide

theorem encodeBlock_len (q : Nat) (p : List UInt8) (hp : p.length ≤ storeContentSize) :
    blkLen (encodeBlock q p) = p.length := by
  simp only [blkLen, encodeBlock]
  rw [beUint64_copyAt _ _ _ _ (by omega), beUint64_putUint64_other _ _ _ _ (by omega),
    beUint64_putUint64_other _ _ _ _ (by omega), beUint64_putUint64_self]
  have : storeContentSize = 16352 := by decide
  omega

theorem encodeBlock_hash (q : Nat) (p : List UInt8) :
    blkHash (encodeBlock q p) = calcBlockHash q p := by
  simp only [blkHash, encodeBlock]
  rw [beUint64_copyAt _ _ _ _ (by omega), beUint64_putUint64_other _ _ _ _ (by omega),
    beUint64_putUint64_self]
  exact Nat.mod_eq_of_lt (calcBlockHash_lt q p)

theorem encodeBlock_seq (q : Nat) (p : List UInt8) (hq : q < 2 ^ 64) :
    blkSeq (encodeBlock q p) = q := by
  simp only [blkSeq, encodeBlock]
  rw [beUint64_copyAt _ _ _ _ (by omega), beUint64_putUint64_self]
  exact Nat.mod_eq_of_lt hq

theorem encodeBlock_content (q : Nat) (p : List UInt8) (hp : p.length ≤ storeContentSize) :
    blkContent (encodeBlock q p) = p := by
  simp only [blkContent, encodeBlock_len q p hp]
  exact slice_copyAt _ _ _

theorem encodeBlock_valid (q : Nat) (p : List UInt8) (hq : q < 2 ^ 64)
    (hp : p.length ≤ storeContentSize) : ValidBlock (encodeBlock q p) := by
  refine ⟨encodeBlock_magic q p, ?_, ?_⟩
  · rw [encodeBlock_len q p hp]; exact hp
  · rw [encodeBlock_hash, encodeBlock_seq q p hq, encodeBlock_content q p hp]

theorem encodeBlock_tail (q : Nat) (p : List UInt8) (hp : p.length ≤ storeContentSize)
    (i : Nat) (hi : storeBlockSize ≤ i) : encodeBlock q p i = 0 := by
  have h1 : storeContentSize = 16352 := by decide
  have h2 : storeBlockSize = 16384 := by decide
  have a1 : ¬ (4 * 8 ≤ i ∧ i < 4 * 8 + p.length) := by omega
  have a2 : ¬ (3 * 8 ≤ i ∧ i < 3 * 8 + 8) := by omega
  have a3 : ¬ (2 * 8 ≤ i ∧ i < 2 * 8 + 8) := by omega
  have a4 : ¬ (1 * 8 ≤ i ∧ i < 1 * 8 + 8) := by omega
  have a5 : ¬ (0 * 8 ≤ i ∧ i < 0 * 8 + 8) := by omega
  simp only [encodeBlock, copyAt, putUint64, a1, a2, a3, a4, a5, if_false]

/-! ## Lemmas on the device memory -/

theorem blockAt_overlay_self (mem : Nat → UInt8) (addr : Nat) (data : Block)
    (hd : ∀ i, storeBlockSize ≤ i → data i = 0) :
    blockAt (Device.overlay mem addr storeBlockSize data) addr = data := by
  funext i
  simp only [blockAt, Device.overlay]
  by_cases h : i < storeBlockSize
  · have : addr ≤ addr + i ∧ addr + i < addr + storeBlockSize := by omega
    simp [h, this]
  · simp [h, hd i (by omega)]

theorem blockAt_overlay_other (mem : Nat → UInt8) (addr addr2 n : Nat) (data : Block)
    (h : addr2 + storeBlockSize ≤ addr ∨ addr + n ≤ addr2) :
    blockAt (Device.overlay mem addr n data) addr2 = blockAt mem addr2 := by
  funext i
  simp only [blockAt, Device.overlay]
  by_cases hi : i < storeBlockSize
  · have : ¬ (addr ≤ addr2 + i ∧ addr2 + i < addr + n) := by omega
    simp [hi, this]
  · simp [hi]

theorem blockAt_overlay_zero (mem : Nat → UInt8) (addr addr2 n : Nat)
    (h : addr ≤ addr2 ∧ addr2 + storeBlockSize ≤ addr + n) :
    blockAt (Device.overlay mem addr n (fun _ => 0)) addr2 = fun _ => 0 := by
  funext i
  simp only [blockAt, Device.overlay]
  by_cases hi : i < storeBlockSize
  · have : addr ≤ addr2 + i ∧ addr2 + i < addr + n := by omega
    simp [hi, this]
  · simp [hi]

theorem zero_not_valid : ¬ ValidBlock (fun _ => 0) := by
  intro h
  have := h.1
  revert this
  decide

theorem accepts_mono (b : Block) (q q2 : Nat) (hq : q ≤ q2) (h : ¬ Accepts b q) :
    ¬ Accepts b q2 := by
  intro h2
  exact h ⟨h2.1, by have := h2.2; omega⟩

/-! ## `readBlockAt` on a working device -/

theorem readsOnly_refl (s : State) : ReadsOnly s s :=
  ⟨rfl, rfl, rfl, rfl, rfl, rfl, rfl, [], by simp, by simp⟩

theorem readsOnly_trans {s t u : State} (h1 : ReadsOnly s t) (h2 : ReadsOnly t u) :
    ReadsOnly s u := by
  obtain ⟨l1, e1, r1⟩ := h1.log
  obtain ⟨l2, e2, r2⟩ := h2.log
  refine ⟨h2.mem.trans h1.mem, h2.fault.trans h1.fault, h2.openErr.trans h1.openErr,
    h2.discardZeroes.trans h1.discardZeroes, h2.storeFile.trans h1.storeFile,
    h2.prevBlock.trans h1.prevBlock, h2.prevEraseblock.trans h1.prevEraseblock,
    l1 ++ l2, ?_, ?_⟩
  · rw [e2, e1, List.append_assoc]
  · intro op hop
    rcases List.mem_append.mp hop with h | h
    · exact r1 op h
    · exact r2 op h

theorem readsOnly_afterRead (s : State) (addr : Nat) : ReadsOnly s (s.afterRead addr) :=
  ⟨rfl, rfl, rfl, rfl, rfl, rfl, rfl, [Op.read addr], rfl, by simp⟩

theorem readsOnly_cache (s : State) (addr : Nat) (b : Block) :
    ReadsOnly s ((s.afterRead addr).cache b) :=
  ⟨rfl, rfl, rfl, rfl, rfl, rfl, rfl, [Op.read addr], rfl, by simp⟩

theorem readBlockAt_found (addr : Nat) (s : State) (ho : s.storeFile = true)
    (hf : ∀ n, s.dev.fault n = none)
    (h : Accepts (blockAt s.dev.mem addr) s.prevSequence) :
    readBlockAt addr s = (.ok true, (s.afterRead addr).cache (blockAt s.dev.mem addr)) := by
  obtain ⟨dev, sf, q, c, b, e⟩ := s
  simp only at ho hf h
  subst ho
  obtain ⟨⟨hm, hl, hh⟩, hq⟩ := h
  simp only [blkMagic, blkLen, blkHash, blkSeq, blkContent] at hm hl hh hq
  simp only [readBlockAt, Device.readAt, hf, Bool.true_eq_false, if_false]
  rw [if_neg (by simp only [not_or]; exact ⟨not_not.mpr hm, by omega, by omega⟩)]
  rw [if_neg (not_not.mpr hh)]
  rfl

theorem readBlockAt_rejected (addr : Nat) (s : State) (ho : s.storeFile = true)
    (hf : ∀ n, s.dev.fault n = none)
    (h : ¬ Accepts (blockAt s.dev.mem addr) s.prevSequence) :
    readBlockAt addr s = (.ok false, s.afterRead addr) := by
  obtain ⟨dev, sf, q, c, b, e⟩ := s
  simp only at ho hf h
  subst ho
  simp only [Accepts, ValidBlock, blkMagic, blkLen, blkHash, blkSeq, blkContent] at h
  simp only [readBlockAt, Device.readAt, hf, Bool.true_eq_false, if_false]
  split
  · rfl
  · rename_i h1
    simp only [not_or, not_not] at h1
    split
    · rfl
    · rename_i h2
      exfalso
      exact h ⟨⟨h1.1, by omega, not_not.mp h2⟩, by omega⟩

/-! ## The binary search of `loadData` -/

theorem searchLoop_boundary (mem : Nat → UInt8) (off k : Nat) :
    ∀ (fuel low high : Nat) (s : State),
      s.storeFile = true → (∀ n, s.dev.fault n = none) → s.dev.mem = mem →
      1 ≤ low → low ≤ k → k ≤ high → high - low ≤ fuel →
      (∀ i, low - 1 ≤ i → i < k → ValidBlock (blockAt mem (off + storeBlockSize * i))) →
      (∀ i j, low - 1 ≤ i → i < j → j < k →
        blkSeq (blockAt mem (off + storeBlockSize * i))
          < blkSeq (blockAt mem (off + storeBlockSize * j))) →
      (∀ j, k ≤ j → j < high →
        ¬ Accepts (blockAt mem (off + storeBlockSize * j))
          (blkSeq (blockAt mem (off + storeBlockSize * (low - 1))))) →
      s.prevSequence = blkSeq (blockAt mem (off + storeBlockSize * (low - 1))) →
      s.prevContent = blkContent (blockAt mem (off + storeBlockSize * (low - 1))) →
      ∃ t, searchLoop off fuel low high s = some (.ok k, t) ∧ ReadsOnly s t ∧
        t.prevSequence = blkSeq (blockAt mem (off + storeBlockSize * (k - 1))) ∧
        t.prevContent = blkContent (blockAt mem (off + storeBlockSize * (k - 1))) := by
  intro fuel
  induction fuel with
  | zero =>
    intro low high s _ _ _ _ hlk hkh hfu _ _ _ hq hc
    have h1 : low = high := by omega
    have h2 : low = k := by omega
    subst h1; subst h2
    exact ⟨s, by simp [searchLoop], readsOnly_refl s, hq, hc⟩
  | succ fuel ih =>
    intro low high s ho hf hmem hl hlk hkh hfu hval hmono hrej hq hc
    by_cases heq : low = high
    · have h2 : low = k := by omega
      subst heq; subst h2
      exact ⟨s, by simp [searchLoop], readsOnly_refl s, hq, hc⟩
    · have hmid1 : low ≤ (low + high) / 2 := by omega
      have hmid2 : (low + high) / 2 < high := by omega
      simp only [searchLoop, heq, if_false]
      by_cases hk : (low + high) / 2 < k
      · have hacc : Accepts (blockAt s.dev.mem (off + storeBlockSize * ((low + high) / 2)))
            s.prevSequence := by
          rw [hmem, hq]
          exact ⟨hval _ (by omega) hk, hmono _ _ (le_refl _) (by omega) hk⟩
        rw [readBlockAt_found _ s ho hf hacc]
        simp only
        obtain ⟨t, ht, hr, hq2, hc2⟩ := ih ((low + high) / 2 + 1) high
          ((s.afterRead _).cache (blockAt s.dev.mem (off + storeBlockSize * ((low + high) / 2))))
          ho hf hmem (by omega) (by omega) hkh (by omega)
          (fun i hi1 hi2 => hval i (by omega) hi2)
          (fun i j hi1 hij hj => hmono i j (by omega) hij hj)
          (fun j hj1 hj2 => by
            simp only [Nat.add_sub_cancel]
            refine accepts_mono _ _ _ ?_ (hrej j hj1 hj2)
            rcases Nat.eq_or_lt_of_le (show low - 1 ≤ (low + high) / 2 by omega) with h | h
            · rw [h]
            · exact Nat.le_of_lt (hmono _ _ (le_refl _) h hk))
          (by simp only [Nat.add_sub_cancel, State.cache, hmem])
          (by simp only [Nat.add_sub_cancel, State.cache, hmem])
        exact ⟨t, ht, readsOnly_trans (readsOnly_cache s _ _) hr, hq2, hc2⟩
      · have hrj : ¬ Accepts (blockAt s.dev.mem (off + storeBlockSize * ((low + high) / 2)))
            s.prevSequence := by
          rw [hmem, hq]
          exact hrej _ (by omega) hmid2
        rw [readBlockAt_rejected _ s ho hf hrj]
        simp only
        obtain ⟨t, ht, hr, hq2, hc2⟩ := ih low ((low + high) / 2) (s.afterRead _)
          ho hf hmem hl hlk (by omega) (by omega) hval hmono
          (fun j hj1 hj2 => hrej j hj1 (by omega)) hq hc
        exact ⟨t, ht, readsOnly_trans (readsOnly_afterRead s _) hr, hq2, hc2⟩

/-! ## The region probes and `loadData` on a working device -/

theorem slotAddr_zero (r : Nat) : slotAddr r 0 = eraseblockSize * r := by
  simp [slotAddr]

theorem probeRegions_none (s : State) (ho : s.storeFile = true)
    (hf : ∀ n, s.dev.fault n = none)
    (h0 : ¬ Accepts (slotBlock s.dev.mem 0 0) s.prevSequence)
    (h1 : ¬ Accepts (slotBlock s.dev.mem 1 0) s.prevSequence) :
    probeRegions s
      = (.ok none, (s.afterRead (eraseblockSize * 0)).afterRead (eraseblockSize * 1)) := by
  simp only [slotBlock, slotAddr_zero] at h0 h1
  simp only [probeRegions]
  rw [readBlockAt_rejected _ s ho hf h0]
  simp only
  rw [readBlockAt_rejected _ (s.afterRead _) ho hf h1]
  rfl

theorem probeRegions_some (s : State) (r : Nat) (ho : s.storeFile = true)
    (hf : ∀ n, s.dev.fault n = none) (hq0 : s.prevSequence = 0) (hr : r ≤ 1)
    (hv : ValidBlock (slotBlock s.dev.mem r 0))
    (hpos : 1 ≤ blkSeq (slotBlock s.dev.mem r 0))
    (hother : ValidBlock (slotBlock s.dev.mem (1 - r) 0) →
      blkSeq (slotBlock s.dev.mem (1 - r) 0) < blkSeq (slotBlock s.dev.mem r 0)) :
    ∃ t, probeRegions s = (.ok (some r), t) ∧ ReadsOnly s t ∧
      t.prevSequence = blkSeq (slotBlock s.dev.mem r 0) ∧
      t.prevContent = blkContent (slotBlock s.dev.mem r 0) := by
  have hr2 : r = 0 ∨ r = 1 := by omega
  rcases hr2 with rfl | rfl
  · simp only [slotBlock, slotAddr_zero, Nat.sub_zero] at hv hpos hother
    have a0 : Accepts (blockAt s.dev.mem (eraseblockSize * 0)) s.prevSequence :=
      ⟨hv, by omega⟩
    simp only [probeRegions]
    rw [readBlockAt_found _ s ho hf a0]
    simp only
    have a1 : ¬ Accepts (blockAt s.dev.mem (eraseblockSize * 1))
        ((s.afterRead (eraseblockSize * 0)).cache
          (blockAt s.dev.mem (eraseblockSize * 0))).prevSequence := by
      intro h
      have := hother h.1
      have := h.2
      simp only [State.cache] at this
      omega
    have := readBlockAt_rejected (eraseblockSize * 1)
      ((s.afterRead (eraseblockSize * 0)).cache (blockAt s.dev.mem (eraseblockSize * 0)))
      ho hf a1
    rw [this]
    refine ⟨_, rfl, ?_, ?_, ?_⟩
    · exact readsOnly_trans (readsOnly_cache s _ _) (readsOnly_afterRead _ _)
    · simp [State.cache, State.afterRead, Device.record, slotBlock, slotAddr_zero]
    · simp [State.cache, State.afterRead, Device.record, slotBlock, slotAddr_zero]
  · simp only [slotBlock, slotAddr_zero, Nat.sub_self] at hv hpos hother
    simp only [probeRegions]
    by_cases a0 : Accepts (blockAt s.dev.mem (eraseblockSize * 0)) s.prevSequence
    · rw [readBlockAt_found _ s ho hf a0]
      simp only
      have a1 : Accepts (blockAt s.dev.mem (eraseblockSize * 1))
          ((s.afterRead (eraseblockSize * 0)).cache
            (blockAt s.dev.mem (eraseblockSize * 0))).prevSequence :=
        ⟨hv, hother a0.1⟩
      have := readBlockAt_found (eraseblockSize * 1)
        ((s.afterRead (eraseblockSize * 0)).cache (blockAt s.dev.mem (eraseblockSize * 0)))
        ho hf a1
      rw [this]
      refine ⟨_, rfl, ?_, ?_, ?_⟩
      · exact readsOnly_trans (readsOnly_cache s _ _) (readsOnly_cache _ _ _)
      · simp [State.cache, State.afterRead, Device.record, slotBlock, slotAddr_zero]
      · simp [State.cache, State.afterRead, Device.record, slotBlock, slotAddr_zero]
    · rw [readBlockAt_rejected _ s ho hf a0]
      simp only
      have a1 : Accepts (blockAt s.dev.mem (eraseblockSize * 1))
          (s.afterRead (eraseblockSize * 0)).prevSequence :=
        ⟨hv, by simp only [State.afterRead]; omega⟩
      have := readBlockAt_found (eraseblockSize * 1) (s.afterRead (eraseblockSize * 0))
        ho hf a1
      rw [this]
      refine ⟨_, rfl, ?_, ?_, ?_⟩
      · exact readsOnly_trans (readsOnly_afterRead s _) (readsOnly_cache _ _ _)
      · simp [State.cache, State.afterRead, Device.record, slotBlock, slotAddr_zero]
      · simp [State.cache, State.afterRead, Device.record, slotBlock, slotAddr_zero]

theorem loadData_spec (d : Device) (r k : Nat) (hd : d.Reliable) (hr : r ≤ 1)
    (hk1 : 1 ≤ k) (hk : k ≤ blocksPerEraseblock)
    (hval : ∀ i, i < k → ValidBlock (slotBlock d.mem r i))
    (hmono : ∀ i j, i < j → j < k →
      blkSeq (slotBlock d.mem r i) < blkSeq (slotBlock d.mem r j))
    (hpos : 1 ≤ blkSeq (slotBlock d.mem r 0))
    (hrej : ∀ j, k ≤ j → j < blocksPerEraseblock →
      ¬ Accepts (slotBlock d.mem r j) (blkSeq (slotBlock d.mem r 0)))
    (hother : ValidBlock (slotBlock d.mem (1 - r) 0) →
      blkSeq (slotBlock d.mem (1 - r) 0) < blkSeq (slotBlock d.mem r 0)) :
    ∃ t, loadData (fresh d) = some (.ok (blkContent (slotBlock d.mem r (k - 1))), t) ∧
      t.prevSequence = blkSeq (slotBlock d.mem r (k - 1)) ∧
      t.prevContent = blkContent (slotBlock d.mem r (k - 1)) ∧
      t.prevEraseblock = r ∧ t.prevBlock = k - 1 ∧ t.storeFile = true ∧
      t.dev.mem = d.mem ∧ t.dev.Reliable ∧ t.dev.discardZeroes = d.discardZeroes := by
  obtain ⟨hopen, hf⟩ := hd
  obtain ⟨t1, ht1, hr1, hq1, hc1⟩ := probeRegions_some
    { fresh d with storeFile := true } r rfl hf rfl hr (hval 0 (by omega)) hpos hother
  have hmem1 : t1.dev.mem = d.mem := hr1.mem
  have hf1 : ∀ n, t1.dev.fault n = none := by
    intro n; rw [hr1.fault]; exact hf n
  obtain ⟨t2, ht2, hr2, hq2, hc2⟩ := searchLoop_boundary d.mem (eraseblockSize * r) k
    blocksPerEraseblock 1 blocksPerEraseblock t1 hr1.storeFile hf1 hmem1
    (le_refl 1) hk1 hk (by omega)
    (fun i _ hi => hval i hi)
    (fun i j _ hij hj => hmono i j hij hj)
    (fun j hj1 hj2 => by
      have := hrej j hj1 hj2
      simpa [slotBlock, slotAddr] using this)
    (by simpa [slotBlock, slotAddr] using hq1)
    (by simpa [slotBlock, slotAddr] using hc1)
  refine ⟨{ t2 with prevBlock := k - 1, prevEraseblock := r }, ?_, hq2, hc2, rfl, rfl, ?_, ?_, ?_, ?_⟩
  · have h0 : ¬ ((fresh d).storeFile = false ∧ (fresh d).dev.openErr = true) := by
      simp [fresh, hopen]
    simp only [loadData, if_neg h0]
    rw [ht1]
    simp only
    rw [ht2]
    simp only [hc2]
    rfl
  · exact hr2.storeFile.trans hr1.storeFile
  · exact hr2.mem.trans hmem1
  · constructor
    · rw [hr2.openErr, hr1.openErr]; exact hopen
    · intro n; rw [hr2.fault]; exact hf1 n
  · rw [hr2.discardZeroes, hr1.discardZeroes]
    rfl

/-! ## `storeData`: case analysis -/

theorem countWrites_append (l m : List Op) :
    countWrites (l ++ m) = countWrites l + countWrites m := by
  induction l with
  | nil => simp [countWrites]
  | cons a l ih =>
    cases a <;> simp [countWrites, ih]
    omega

theorem writtenSeqs_append (l m : List Op) :
    writtenSeqs (l ++ m) = writtenSeqs l ++ writtenSeqs m := by
  induction l with
  | nil => simp [writtenSeqs]
  | cons a l ih =>
    cases a <;> simp [writtenSeqs, ih]

theorem rotate_cases (s : State) :
    ((rotate s).1 = none ∨ (rotate s).1 = some Err.ioDiscard) ∧
      (rotate s).2.prevSequence = s.prevSequence ∧ (rotate s).2.prevContent = s.prevContent ∧
      (rotate s).2.storeFile = s.storeFile ∧
      (rotate s).2.prevBlock
        = (if s.prevBlock ≥ blocksPerEraseblock then 0 else s.prevBlock) ∧
      (rotate s).2.prevEraseblock
        = (if s.prevBlock ≥ blocksPerEraseblock then 1 - s.prevEraseblock
            else s.prevEraseblock) ∧
      (rotate s).2.dev.fault = s.dev.fault ∧
      ∃ l, (rotate s).2.dev.log = s.dev.log ++ l ∧ writtenSeqs l = [] ∧ countWrites l = 0 := by
  obtain ⟨dev, sf, q, c, b, e⟩ := s
  by_cases hb : b ≥ blocksPerEraseblock
  · cases sf with
    | false => simp [rotate, hb, writtenSeqs, countWrites]
    | true =>
      cases hfl : dev.fault dev.log.length with
      | none =>
        refine ⟨?_, ?_, ?_, ?_, ?_, ?_, ?_, [Op.discard ((1 - e) * eraseblockSize) eraseblockSize],
          ?_, rfl, rfl⟩ <;> simp [rotate, hb, ioctlBlkDiscard, hfl]
      | some m =>
        refine ⟨?_, ?_, ?_, ?_, ?_, ?_, ?_, [Op.discard ((1 - e) * eraseblockSize) eraseblockSize],
          ?_, rfl, rfl⟩ <;> simp [rotate, hb, ioctlBlkDiscard, hfl, Device.record]
  · simp [rotate, hb, writtenSeqs, countWrites]

/-- What one call of `storeData` does with a payload that fits and differs from
the cached content: the sequence number and the cursor always advance; the
cached content changes only on success; a block is written unless the discard
or the write fails. -/
theorem storeData_cases (s : State) (content : List UInt8)
    (hlen : content.length ≤ storeContentSize) (hne : content ≠ s.prevContent) :
    (storeData content s).2.prevSequence = (s.prevSequence + 1) % 2 ^ 64 ∧
      ((storeData content s).2.prevBlock, (storeData content s).2.prevEraseblock)
        = advance s.prevBlock s.prevEraseblock ∧
      (storeData content s).2.storeFile = s.storeFile ∧
      (storeData content s).2.dev.fault = s.dev.fault ∧
      (((storeData content s).1 = none ∧ (storeData content s).2.prevContent = content) ∨
        ((storeData content s).1 = some Err.ioSync
          ∧ (storeData content s).2.prevContent = s.prevContent) ∨
        ((storeData content s).1 = some Err.ioWrite
          ∧ (storeData content s).2.prevContent = s.prevContent) ∨
        ((storeData content s).1 = some Err.ioDiscard
          ∧ (storeData content s).2.prevContent = s.prevContent)) ∧
      (((storeData content s).1 = none ∨ (storeData content s).1 = some Err.ioSync) →
        ∃ l, (storeData content s).2.dev.log = s.dev.log ++ l ∧
          writtenSeqs l = [(s.prevSequence + 1) % 2 ^ 64] ∧ countWrites l = 1) := by
  have hlen2 : ¬ content.length > storeContentSize := by omega
  have key := rotate_cases
    { s with prevSequence := (s.prevSequence + 1) % 2 ^ 64, prevBlock := s.prevBlock + 1 }
  rcases hrot : rotate
    { s with prevSequence := (s.prevSequence + 1) % 2 ^ 64, prevBlock := s.prevBlock + 1 }
    with ⟨ro, u⟩
  rw [hrot] at key
  simp only at key
  obtain ⟨hu, uq, uc, uf, ub, ue, ufl, l0, ul, uw, ucw⟩ := key
  have hadv : (u.prevBlock, u.prevEraseblock) = advance s.prevBlock s.prevEraseblock := by
    rw [ub, ue]
    simp only [advance]
    split <;> rfl
  have hseq : blkSeq (encodeBlock u.prevSequence content) = (s.prevSequence + 1) % 2 ^ 64 := by
    rw [uq]
    exact encodeBlock_seq _ _ (Nat.mod_lt _ (by decide))
  rcases hu with rfl | rfl
  · cases hs : u.storeFile with
    | false =>
      have hsd : storeData content s = (some Err.ioWrite, u) := by
        simp only [storeData, hlen2, hne, if_false, hrot, hs, if_true]
      rw [hsd]
      simp [uq, uc, hadv, uf, ufl]
    | true =>
      cases hfl : u.dev.fault u.dev.log.length with
      | some m =>
        have hsd : storeData content s = (some Err.ioWrite,
            { u with dev := { u.dev with
                mem := Device.overlay u.dev.mem
                  (u.prevEraseblock * eraseblockSize + u.prevBlock * storeBlockSize)
                  (min m (storeBlockSize - 1)) (encodeBlock u.prevSequence content)
                log := u.dev.log ++ [Op.write
                  (u.prevEraseblock * eraseblockSize + u.prevBlock * storeBlockSize)
                  (encodeBlock u.prevSequence content)] } }) := by
          simp only [storeData, hlen2, hne, if_false, hrot, hs, Bool.true_eq_false,
            Device.writeAt, hfl]
        rw [hsd]
        simp [uq, uc, hadv, uf, ufl]
      | none =>
        have hsd1 : u.dev.writeAt (encodeBlock u.prevSequence content)
              (u.prevEraseblock * eraseblockSize + u.prevBlock * storeBlockSize)
            = (true, { u.dev with
                mem := Device.overlay u.dev.mem
                  (u.prevEraseblock * eraseblockSize + u.prevBlock * storeBlockSize)
                  storeBlockSize (encodeBlock u.prevSequence content)
                log := u.dev.log ++ [Op.write
                  (u.prevEraseblock * eraseblockSize + u.prevBlock * storeBlockSize)
                  (encodeBlock u.prevSequence content)] }) := by
          simp only [Device.writeAt, hfl]
        have hlog : ∃ l, u.dev.log ++ [Op.write
              (u.prevEraseblock * eraseblockSize + u.prevBlock * storeBlockSize)
              (encodeBlock u.prevSequence content)] ++ [Op.sync] = s.dev.log ++ l ∧
            writtenSeqs l = [(s.prevSequence + 1) % 2 ^ 64] ∧ countWrites l = 1 := by
          refine ⟨l0 ++ [Op.write
              (u.prevEraseblock * eraseblockSize + u.prevBlock * storeBlockSize)
              (encodeBlock u.prevSequence content), Op.sync], ?_, ?_, ?_⟩
          · simp [ul]
          · simp [writtenSeqs_append, uw, writtenSeqs, hseq]
          · simp [countWrites_append, ucw, countWrites]
        cases hfl2 : u.dev.fault (u.dev.log.length + 1) with
        | some m =>
          have hsd : storeData content s = (some Err.ioSync,
              { u with dev := { u.dev with
                mem := Device.overlay u.dev.mem
                  (u.prevEraseblock * eraseblockSize + u.prevBlock * storeBlockSize)
                  storeBlockSize (encodeBlock u.prevSequence content)
                log := u.dev.log ++ [Op.write
                  (u.prevEraseblock * eraseblockSize + u.prevBlock * storeBlockSize)
                  (encodeBlock u.prevSequence content)] ++ [Op.sync] } }) := by
            simp only [storeData, hlen2, hne, if_false, hrot, hs, Bool.true_eq_false, hsd1,
              Device.sync, List.length_append, List.length_singleton, hfl2, Device.record]
          rw [hsd]
          exact ⟨uq, hadv, by simp [uf, hs], ufl, by simp [uc], fun _ => hlog⟩
        | none =>
          have hsd : storeData content s = (none,
              { u with
                dev := { u.dev with
                  mem := Device.overlay u.dev.mem
                    (u.prevEraseblock * eraseblockSize + u.prevBlock * storeBlockSize)
                    storeBlockSize (encodeBlock u.prevSequence content)
                  log := u.dev.log ++ [Op.write
                    (u.prevEraseblock * eraseblockSize + u.prevBlock * storeBlockSize)
                    (encodeBlock u.prevSequence content)] ++ [Op.sync] }
                prevContent := content }) := by
            simp only [storeData, hlen2, hne, if_false, hrot, hs, Bool.true_eq_false, hsd1,
              Device.sync, List.length_append, List.length_singleton, hfl2, Device.record]
          rw [hsd]
          exact ⟨uq, hadv, by simp [uf, hs], ufl, by simp, fun _ => hlog⟩
  · have hsd : storeData content s = (some Err.ioDiscard, u) := by
      simp only [storeData, hlen2, hne, if_false, hrot]
    rw [hsd]
    simp [uq, uc, hadv, uf, ufl]

/-! ## Claims on `storeData` alone -/

/-- C8. A payload longer than `storeContentSize` (16352 bytes) makes `storeData`
return `errTooBig` and leave the whole state as it was: no operation is logged,
the device bytes and every cached field are unchanged. A payload of at most
16352 bytes never yields `errTooBig`. -/
theorem storeData_tooBig (s : State) (content : List UInt8) :
    storeContentSize = 16352 ∧
    (content.length > storeContentSize → storeData content s = (some Err.tooBig, s)) ∧
    (content.length ≤ storeContentSize → (storeData content s).1 ≠ some Err.tooBig) := by
  refine ⟨by decide, ?_, ?_⟩
  · intro h
    simp [storeData, h]
  · intro h
    by_cases hne : content = s.prevContent
    · subst hne
      have h1 : ¬ s.prevContent.length > storeContentSize := by omega
      simp only [storeData, h1, if_false, if_true]
      simp
    · obtain ⟨_, _, _, _, hr, _⟩ := storeData_cases s content h hne
      rcases hr with h | h | h | h <;> simp [h.1]

/-- Witness for C8 on the fresh state over an all-zero device: a payload of
16353 bytes is refused, the empty payload is not. -/
theorem storeData_tooBig_witness :
    storeData tooLong (fresh (goodDevice zeroMem true))
        = (some Err.tooBig, fresh (goodDevice zeroMem true)) ∧
      (storeData [] (fresh (goodDevice zeroMem true))).1 ≠ some Err.tooBig :=
  ⟨(storeData_tooBig (fresh (goodDevice zeroMem true)) tooLong).2.1
      (by rw [tooLong, List.length_replicate]; omega),
    (storeData_tooBig (fresh (goodDevice zeroMem true)) []).2.2 (Nat.zero_le _)⟩

/-- C3, counterexample. On a device whose discard fails, `storeData` returns an
error and yet `prevSequence`, `prevBlock` and `prevEraseblock` have changed. -/
theorem storeData_error_not_atomic :
    (storeData [1] (opened firstOpFails)).1 = some Err.ioDiscard ∧
      (opened firstOpFails).prevSequence = 0 ∧
      (storeData [1] (opened firstOpFails)).2.prevSequence = 1 ∧
      (opened firstOpFails).prevBlock = 255 ∧
      (storeData [1] (opened firstOpFails)).2.prevBlock = 0 ∧
      (opened firstOpFails).prevEraseblock = 1 ∧
      (storeData [1] (opened firstOpFails)).2.prevEraseblock = 0 := by
  decide!

/-- C3 (amended). When `storeData` returns an error, `prevContent` is what it was
before the call; when the error is `errTooBig`, the whole state (device, log,
`prevSequence`, `prevBlock`, `prevEraseblock`) is what it was before the call. -/
theorem storeData_error_state (s : State) (content : List UInt8) (e : Err)
    (h : (storeData content s).1 = some e) :
    (storeData content s).2.prevContent = s.prevContent ∧
      (e = Err.tooBig → storeData content s = (some Err.tooBig, s)) := by
  by_cases hlen : content.length > storeContentSize
  · have hsd : storeData content s = (some Err.tooBig, s) := by simp [storeData, hlen]
    rw [hsd]
    simp
  · by_cases hne : content = s.prevContent
    · have hsd : storeData content s = (none, s) := by
        simp only [storeData, hlen, if_false]
        rw [if_pos hne]
      rw [hsd] at h
      simp at h
    · obtain ⟨_, _, _, _, hr, _⟩ := storeData_cases s content (by omega) hne
      rcases hr with hr | hr | hr | hr
      · rw [hr.1] at h; simp at h
      all_goals
        rw [hr.1] at h
        simp only [Option.some.injEq] at h
        subst h
        exact ⟨hr.2, by simp⟩

/-- Witness for C3 (amended): the failing discard on the fresh state, and a
payload that is too long. -/
theorem storeData_error_state_witness :
    (storeData [1] (opened firstOpFails)).1 = some Err.ioDiscard ∧
      (storeData [1] (opened firstOpFails)).2.prevContent = (opened firstOpFails).prevContent ∧
      storeData tooLong (opened firstOpFails) = (some Err.tooBig, opened firstOpFails) :=
  ⟨by decide!,
    (storeData_error_state (opened firstOpFails) [1] Err.ioDiscard (by decide!)).1,
    (storeData_error_state (opened firstOpFails) tooLong Err.tooBig
      (by simp [storeData, tooLong])).2 rfl⟩

/-- C4, counterexample. Storing the empty payload twice on the fresh state
succeeds both times and writes no block at all. -/
theorem storeData_twice_no_write :
    (storeData [] (fresh (goodDevice zeroMem true))).1 = none ∧
      (storeData [] (storeData [] (fresh (goodDevice zeroMem true))).2).1 = none ∧
      countWrites (storeData [] (storeData [] (fresh (goodDevice zeroMem true))).2).2.dev.log
        = 0 := by
  decide!

/-- C4 (amended). If `storeData p` succeeds, then `p` has at most 16352 bytes, a
second `storeData p` right after it returns success and leaves the whole state
(device bytes, operation log, cached fields) as the first call left it, and the
two calls together write exactly one block when `p` differs from the content
cached before the first call, and none when it equals it. -/
theorem storeData_twice (s : State) (p : List UInt8) (h : (storeData p s).1 = none) :
    p.length ≤ storeContentSize ∧
      storeData p (storeData p s).2 = (none, (storeData p s).2) ∧
      ∃ l, (storeData p (storeData p s).2).2.dev.log = s.dev.log ++ l ∧
        countWrites l = (if p = s.prevContent then 0 else 1) := by
  by_cases hlen : p.length > storeContentSize
  · have hsd : storeData p s = (some Err.tooBig, s) := by simp [storeData, hlen]
    rw [hsd] at h
    simp at h
  · by_cases hne : p = s.prevContent
    · have hsd : storeData p s = (none, s) := by
        simp only [storeData, hlen, if_false]
        rw [if_pos hne]
      rw [hsd]
      simp only
      rw [hsd]
      exact ⟨by omega, rfl, [], by simp, by simp [hne, countWrites]⟩
    · obtain ⟨_, _, _, _, hr, hl⟩ := storeData_cases s p (by omega) hne
      have hc : (storeData p s).2.prevContent = p := by
        rcases hr with hr | hr | hr | hr
        · exact hr.2
        all_goals
          rw [hr.1] at h
          simp at h
      have hsd2 : storeData p (storeData p s).2 = (none, (storeData p s).2) := by
        generalize (storeData p s).2 = t at hc
        simp only [storeData, hlen, if_false]
        rw [if_pos hc.symm]
      obtain ⟨l, hl1, _, hl2⟩ := hl (Or.inl h)
      rw [hsd2]
      exact ⟨by omega, rfl, l, hl1, by simp [hne, hl2]⟩

/-- Witness for C4 (amended): storing `[1]` twice on a fresh opened device. -/
theorem storeData_twice_witness :
    (storeData [1] (opened (goodDevice zeroMem true))).1 = none ∧
      storeData [1] (storeData [1] (opened (goodDevice zeroMem true))).2
        = (none, (storeData [1] (opened (goodDevice zeroMem true))).2) :=
  ⟨by decide!, (storeData_twice (opened (goodDevice zeroMem true)) [1] (by decide!)).2.1⟩

/-- C6, counterexample. After `loadData` on an all-zero device, a `storeData`
whose discard fails still consumes sequence number 1, so the first block that
reaches the device carries sequence number 2. -/
theorem storeData_sequence_gap :
    (loadData (fresh thirdOpFails)).map (fun r => r.1) = some (.error Err.noData) ∧
      (loadedState thirdOpFails).prevSequence = 0 ∧
      storeResults (loadedState thirdOpFails) [[1], [1]] = [some Err.ioDiscard, none] ∧
      writtenSeqs (storeAll (loadedState thirdOpFails) [[1], [1]]).dev.log = [2] := by
  decide!

/-- C6 (amended). Over any run of `storeData` calls, started with a 64-bit
`prevSequence`, in which no discard and no write fails (a sync may fail,
payloads may repeat or be too big), the blocks
written carry the sequence numbers `prevSequence + 1, prevSequence + 2, ...`
modulo 2^64, counted from the `prevSequence` at the start of the run (the
recovered sequence number, or 0 without data): each written block's sequence
number is one greater, modulo 2^64, than that of the block written before it. -/
theorem storeData_sequence_chain (ps : List (List UInt8)) (s : State)
    (hq : s.prevSequence < 2 ^ 64)
    (h : ∀ r ∈ storeResults s ps, r ≠ some Err.ioDiscard ∧ r ≠ some Err.ioWrite) :
    ∃ l n, (storeAll s ps).dev.log = s.dev.log ++ l ∧
      writtenSeqs l = (List.range n).map (fun i => (s.prevSequence + 1 + i) % 2 ^ 64) ∧
      (storeAll s ps).prevSequence = (s.prevSequence + n) % 2 ^ 64 := by
  induction ps generalizing s with
  | nil =>
    exact ⟨[], 0, by simp [storeAll], by simp [writtenSeqs],
      by simp only [storeAll, Nat.add_zero]; exact (Nat.mod_eq_of_lt hq).symm⟩
  | cons p ps ih =>
    have hhead := h (storeData p s).1 (by simp [storeResults])
    have htail : ∀ r ∈ storeResults (storeData p s).2 ps,
        r ≠ some Err.ioDiscard ∧ r ≠ some Err.ioWrite :=
      fun r hr => h r (by simp [storeResults, hr])
    by_cases hsame : storeData p s = ((storeData p s).1, s)
    · rw [hsame] at htail
      simp only [storeAll]
      rw [hsame]
      exact ih s hq htail
    · have hlen : p.length ≤ storeContentSize := by
        by_contra hc
        exact hsame (by simp [storeData, show p.length > storeContentSize by omega])
      have hne : p ≠ s.prevContent := by
        intro hc
        apply hsame
        have hlen2 : ¬ p.length > storeContentSize := by omega
        simp only [storeData, hlen2, if_false]
        rw [if_pos hc]
      obtain ⟨hq1, _, _, _, hr, hl⟩ := storeData_cases s p hlen hne
      have hres : (storeData p s).1 = none ∨ (storeData p s).1 = some Err.ioSync := by
        rcases hr with hr | hr | hr | hr
        · exact Or.inl hr.1
        · exact Or.inr hr.1
        · exact absurd hr.1 hhead.2
        · exact absurd hr.1 hhead.1
      obtain ⟨l1, hl1, hw1, _⟩ := hl hres
      obtain ⟨l2, n2, hl2, hw2, hq2⟩ := ih (storeData p s).2
        (by rw [hq1]; exact Nat.mod_lt _ (by decide)) htail
      refine ⟨l1 ++ l2, n2 + 1, ?_, ?_, ?_⟩
      · simp only [storeAll]
        rw [hl2, hl1, List.append_assoc]
      · rw [writtenSeqs_append, hw1, hw2, hq1, List.range_succ_eq_map]
        simp only [List.map_cons, List.map_map, List.singleton_append, Nat.add_zero,
          List.cons.injEq, true_and]
        apply List.map_congr_left
        intro i _
        simp only [Function.comp]
        omega
      · simp only [storeAll]
        rw [hq2, hq1]
        omega

/-- Witness for C6 (amended): three calls on a working, all-zero device, the
second repeating the payload, write the sequence numbers 1 and 2. -/
theorem storeData_sequence_chain_witness :
    ∃ l n, (storeAll (opened (goodDevice zeroMem true)) [[1], [1], [2]]).dev.log
        = (opened (goodDevice zeroMem true)).dev.log ++ l ∧
      writtenSeqs l = (List.range n).map
        (fun i => ((opened (goodDevice zeroMem true)).prevSequence + 1 + i) % 2 ^ 64) ∧
      (storeAll (opened (goodDevice zeroMem true)) [[1], [1], [2]]).prevSequence
        = ((opened (goodDevice zeroMem true)).prevSequence + n) % 2 ^ 64 :=
  storeData_sequence_chain [[1], [1], [2]] (opened (goodDevice zeroMem true))
    (by decide) (by decide!)

/-! ## `storeData` on a working device -/

theorem storeData_ok (s : State) (p : List UInt8) (hlen : p.length ≤ storeContentSize)
    (hne : p ≠ s.prevContent) (hs : s.storeFile = true) (hf : ∀ n, s.dev.fault n = none) :
    storeData p s = (none, s.stored p) := by
  have hlen2 : ¬ p.length > storeContentSize := by omega
  obtain ⟨dev, sf, q, c, b, e⟩ := s
  simp only at hs hf hne
  subst hs
  by_cases hb : b + 1 ≥ blocksPerEraseblock
  · simp [storeData, hlen2, hne, rotate, hb, ioctlBlkDiscard, Device.writeAt, Device.sync,
      Device.record, hf, State.stored, advance]
  · simp [storeData, hlen2, hne, rotate, hb, Device.writeAt, Device.sync,
      Device.record, hf, State.stored, advance]

/-! ## Claims on `loadData` -/

theorem blockAt_zeroMem (addr : Nat) : blockAt zeroMem addr = fun _ => 0 := by
  funext i
  simp [blockAt, zeroMem]

/-- C9. On a working device whose slot 0 of region 0 and slot 0 of region 1 are
both invalid, `loadData` from the fresh state returns `errNoData` after exactly
two block reads (addresses 0 and 4 MiB), leaves the device bytes alone and
keeps `prevSequence = 0`, `prevContent` empty, `prevBlock = 255` and
`prevEraseblock = 1`; the first `storeData` of a non-empty payload that fits
then discards region 0 and writes a block with sequence number 1 at address 0,
slot 0 of region 0. -/
theorem loadData_virgin (d : Device) (hd : d.Reliable)
    (h0 : ¬ ValidBlock (slotBlock d.mem 0 0)) (h1 : ¬ ValidBlock (slotBlock d.mem 1 0)) :
    ∃ t, loadData (fresh d) = some (.error Err.noData, t) ∧
      t.dev.log = d.log ++ [Op.read 0, Op.read 4194304] ∧
      t.dev.mem = d.mem ∧ t.prevSequence = 0 ∧ t.prevContent = [] ∧
      t.prevBlock = 255 ∧ t.prevEraseblock = 1 ∧
      ∀ p : List UInt8, p ≠ [] → p.length ≤ storeContentSize →
        ∃ u, storeData p t = (none, u) ∧
          u.dev.log = t.dev.log
            ++ [Op.discard 0 4194304, Op.write 0 (encodeBlock 1 p), Op.sync] ∧
          blkSeq (encodeBlock 1 p) = 1 ∧ slotAddr 0 0 = 0 ∧
          slotBlock u.dev.mem 0 0 = encodeBlock 1 p ∧
          u.prevSequence = 1 ∧ u.prevBlock = 0 ∧ u.prevEraseblock = 0 := by
  obtain ⟨hopen, hf⟩ := hd
  have hprobe := probeRegions_none (opened d) rfl hf
    (fun h => h0 h.1) (fun h => h1 h.1)
  refine ⟨((opened d).afterRead (eraseblockSize * 0)).afterRead (eraseblockSize * 1),
    ?_, ?_, rfl, rfl, rfl, rfl, rfl, ?_⟩
  · have hno : ¬ ((fresh d).storeFile = false ∧ (fresh d).dev.openErr = true) := by
      simp [fresh, hopen]
    simp only [loadData, if_neg hno]
    have : probeRegions { fresh d with storeFile := true }
        = (.ok none, ((opened d).afterRead (eraseblockSize * 0)).afterRead
            (eraseblockSize * 1)) := hprobe
    rw [this]
  · simp [State.afterRead, Device.record, opened, fresh, eraseblockSize]
  · intro p hp hlen
    refine ⟨_, storeData_ok _ p hlen hp rfl hf, ?_, encodeBlock_seq 1 p (by decide),
      by decide, ?_, rfl, rfl, rfl⟩
    · simp [State.stored, State.afterRead, Device.record, opened, fresh, advance,
        blocksPerEraseblock, eraseblockSize, storeBlockSize]
    · have haddr : slotAddr 0 0 = 0 := by decide
      simp only [slotBlock, haddr]
      have hst : (State.stored (((opened d).afterRead (eraseblockSize * 0)).afterRead
          (eraseblockSize * 1)) p).dev.mem
          = Device.overlay
              (if d.discardZeroes then
                Device.overlay d.mem 0 eraseblockSize (fun _ => 0) else d.mem)
              0 storeBlockSize (encodeBlock 1 p) := by
        simp [State.stored, State.afterRead, Device.record, opened, fresh, advance,
          blocksPerEraseblock, eraseblockSize, storeBlockSize]
      rw [hst]
      exact blockAt_overlay_self _ 0 _ (encodeBlock_tail 1 p hlen)

/-- Witness for C9: the all-zero device. -/
theorem loadData_virgin_witness :
    ∃ t, loadData (fresh (goodDevice zeroMem true)) = some (.error Err.noData, t) ∧
      t.dev.log = (goodDevice zeroMem true).log ++ [Op.read 0, Op.read 4194304] ∧
      t.dev.mem = (goodDevice zeroMem true).mem ∧ t.prevSequence = 0 ∧ t.prevContent = [] ∧
      t.prevBlock = 255 ∧ t.prevEraseblock = 1 ∧
      ∀ p : List UInt8, p ≠ [] → p.length ≤ storeContentSize →
        ∃ u, storeData p t = (none, u) ∧
          u.dev.log = t.dev.log
            ++ [Op.discard 0 4194304, Op.write 0 (encodeBlock 1 p), Op.sync] ∧
          blkSeq (encodeBlock 1 p) = 1 ∧ slotAddr 0 0 = 0 ∧
          slotBlock u.dev.mem 0 0 = encodeBlock 1 p ∧
          u.prevSequence = 1 ∧ u.prevBlock = 0 ∧ u.prevEraseblock = 0 :=
  loadData_virgin (goodDevice zeroMem true) ⟨rfl, fun _ => rfl⟩
    (by
      have h : slotBlock (goodDevice zeroMem true).mem 0 0 = fun _ => 0 := blockAt_zeroMem _
      rw [h]; exact zero_not_valid)
    (by
      have h : slotBlock (goodDevice zeroMem true).mem 1 0 = fun _ => 0 := blockAt_zeroMem _
      rw [h]; exact zero_not_valid)

theorem slotAddr_disjoint (r j r2 j2 : Nat) (hj : j < blocksPerEraseblock)
    (hj2 : j2 < blocksPerEraseblock) (hne : r ≠ r2 ∨ j ≠ j2) :
    slotAddr r2 j2 + storeBlockSize ≤ slotAddr r j
      ∨ slotAddr r j + storeBlockSize ≤ slotAddr r2 j2 := by
  have h1 : blocksPerEraseblock = 256 := by decide
  have h2 : storeBlockSize = 16384 := by decide
  have h3 : eraseblockSize = 4194304 := by decide
  simp only [slotAddr, h2, h3]
  rw [h1] at hj hj2
  omega

theorem slotBlock_overlay_other (mem : Nat → UInt8) (r j r2 j2 : Nat) (data : Block)
    (hj : j < blocksPerEraseblock) (hj2 : j2 < blocksPerEraseblock)
    (hne : r ≠ r2 ∨ j ≠ j2) :
    slotBlock (Device.overlay mem (slotAddr r2 j2) storeBlockSize data) r j
      = slotBlock mem r j := by
  apply blockAt_overlay_other
  rcases slotAddr_disjoint r j r2 j2 hj hj2 hne with h | h
  · exact Or.inr h
  · exact Or.inl h

theorem slotBlock_overlay_self (mem : Nat → UInt8) (r j : Nat) (q : Nat) (p : List UInt8)
    (hp : p.length ≤ storeContentSize) :
    slotBlock (Device.overlay mem (slotAddr r j) storeBlockSize (encodeBlock q p)) r j
      = encodeBlock q p :=
  blockAt_overlay_self _ _ _ (encodeBlock_tail q p hp)

theorem slotBlock_zeroMem (r j : Nat) : slotBlock zeroMem r j = fun _ => 0 :=
  blockAt_zeroMem _

/-- C2, counterexample. Slot 0 of region 0 holds a block with matching magic,
length and checksum but sequence number 0, every other slot is invalid; the
specification (with `k = 1`, `r = 0`) promises the content of slot 0, yet
`loadData` returns `errNoData`. -/
theorem loadData_rejects_sequence_zero :
    ValidBlock (slotBlock seqZeroMem 0 0) ∧
      (∀ j, 1 ≤ j → j < blocksPerEraseblock → ¬ ValidBlock (slotBlock seqZeroMem 0 j)) ∧
      ¬ ValidBlock (slotBlock seqZeroMem 1 0) ∧
      (loadData (fresh (goodDevice seqZeroMem true))).map (fun r => r.1)
        = some (.error Err.noData) := by
  refine ⟨by decide!, ?_, ?_, by decide!⟩
  · intro j h1 h2
    have h : slotBlock seqZeroMem 0 j = fun _ => 0 := by
      unfold seqZeroMem
      rw [slotBlock_overlay_other _ _ _ _ _ _ h2 (by decide) (Or.inr (by omega))]
      exact slotBlock_zeroMem _ _
    rw [h]; exact zero_not_valid
  · have h : slotBlock seqZeroMem 1 0 = fun _ => 0 := by
      unfold seqZeroMem
      rw [slotBlock_overlay_other _ _ _ _ _ _ (by decide) (by decide) (Or.inl (by omega))]
      exact slotBlock_zeroMem _ _
    rw [h]; exact zero_not_valid

/-- C2 (amended). Let `1 ≤ k ≤ 256` and `r ∈ {0, 1}`. If on a working device
slots `0..k-1` of region `r` hold valid blocks with strictly increasing sequence
numbers, the sequence number of slot 0 is at least 1, slots `k..255` of region
`r` are invalid, and slot 0 of the other region is invalid or has a smaller
sequence number, then `loadData` from the fresh state returns the content of
slot `k-1`, sets `prevSequence` to that slot's sequence number and leaves the
cursor at `prevEraseblock = r`, `prevBlock = k-1`; for `k < 256` the next
`storeData` of a different payload that fits writes its block into slot `k` of
region `r`. -/
theorem loadData_recovery_boundary (d : Device) (r k : Nat) (hd : d.Reliable)
    (hr : r ≤ 1) (hk1 : 1 ≤ k) (hk : k ≤ blocksPerEraseblock)
    (hval : ∀ i, i < k → ValidBlock (slotBlock d.mem r i))
    (hmono : ∀ i j, i < j → j < k →
      blkSeq (slotBlock d.mem r i) < blkSeq (slotBlock d.mem r j))
    (hpos : 1 ≤ blkSeq (slotBlock d.mem r 0))
    (hinv : ∀ j, k ≤ j → j < blocksPerEraseblock → ¬ ValidBlock (slotBlock d.mem r j))
    (hother : ¬ ValidBlock (slotBlock d.mem (1 - r) 0)
      ∨ blkSeq (slotBlock d.mem (1 - r) 0) < blkSeq (slotBlock d.mem r 0)) :
    ∃ t, loadData (fresh d) = some (.ok (blkContent (slotBlock d.mem r (k - 1))), t) ∧
      t.prevSequence = blkSeq (slotBlock d.mem r (k - 1)) ∧
      t.prevContent = blkContent (slotBlock d.mem r (k - 1)) ∧
      t.prevEraseblock = r ∧ t.prevBlock = k - 1 ∧
      (k < blocksPerEraseblock → ∀ p : List UInt8, p.length ≤ storeContentSize →
        p ≠ blkContent (slotBlock d.mem r (k - 1)) →
        (storeData p t).1 = none ∧
        (storeData p t).2.dev.log = t.dev.log ++
          [Op.write (slotAddr r k)
            (encodeBlock ((blkSeq (slotBlock d.mem r (k - 1)) + 1) % 2 ^ 64) p), Op.sync]) := by
  obtain ⟨t, ht, hq, hc, he, hb, hs, _, hrel, _⟩ := loadData_spec d r k hd hr hk1 hk hval hmono
    hpos (fun j hj1 hj2 h => hinv j hj1 hj2 h.1)
    (fun h => by
      rcases hother with h2 | h2
      · exact absurd h h2
      · exact h2)
  refine ⟨t, ht, hq, hc, he, hb, ?_⟩
  intro hkN p hlen hne
  rw [storeData_ok t p hlen (by rw [hc]; exact hne) hs hrel.2]
  have hnb : ¬ (t.prevBlock + 1 ≥ blocksPerEraseblock) := by rw [hb]; omega
  have hadd : slotAddr r k = t.prevEraseblock * eraseblockSize
      + (t.prevBlock + 1) * storeBlockSize := by
    rw [he, hb, slotAddr, Nat.mul_comm, Nat.mul_comm storeBlockSize]
    congr 2
    omega
  simp only [State.stored, advance, hnb, if_false, hq, hadd, true_and]

/-- Witness for C2 (amended): two blocks in region 0 (`k = 2`, `r = 0`). -/
theorem loadData_recovery_boundary_witness :
    ∃ t, loadData (fresh (goodDevice twoBlocksMem true))
        = some (.ok (blkContent (slotBlock (goodDevice twoBlocksMem true).mem 0 (2 - 1))), t) ∧
      t.prevSequence = blkSeq (slotBlock (goodDevice twoBlocksMem true).mem 0 (2 - 1)) ∧
      t.prevContent = blkContent (slotBlock (goodDevice twoBlocksMem true).mem 0 (2 - 1)) ∧
      t.prevEraseblock = 0 ∧ t.prevBlock = 2 - 1 ∧
      (2 < blocksPerEraseblock → ∀ p : List UInt8, p.length ≤ storeContentSize →
        p ≠ blkContent (slotBlock (goodDevice twoBlocksMem true).mem 0 (2 - 1)) →
        (storeData p t).1 = none ∧
        (storeData p t).2.dev.log = t.dev.log ++
          [Op.write (slotAddr 0 2)
            (encodeBlock
              ((blkSeq (slotBlock (goodDevice twoBlocksMem true).mem 0 (2 - 1)) + 1) % 2 ^ 64) p),
            Op.sync]) :=
  loadData_recovery_boundary (goodDevice twoBlocksMem true) 0 2 ⟨rfl, fun _ => rfl⟩
    (by decide) (by decide) (by decide)
    (by
      intro i hi
      have : i = 0 ∨ i = 1 := by omega
      rcases this with rfl | rfl <;> decide!)
    (by
      intro i j hij hj
      have : i = 0 ∧ j = 1 := by omega
      obtain ⟨rfl, rfl⟩ := this
      decide!)
    (by decide!)
    (by
      intro j h1 h2
      have h : slotBlock (goodDevice twoBlocksMem true).mem 0 j = fun _ => 0 := by
        show slotBlock twoBlocksMem 0 j = _
        unfold twoBlocksMem
        rw [slotBlock_overlay_other _ _ _ _ _ _ h2 (by decide) (Or.inr (by omega)),
          slotBlock_overlay_other _ _ _ _ _ _ h2 (by decide) (Or.inr (by omega))]
        exact slotBlock_zeroMem _ _
      rw [h]; exact zero_not_valid)
    (Or.inl (by decide!))

/-! ## A corrupted slot inside the valid run -/

theorem probePath_bounds (k : Nat) : ∀ (fuel low high : Nat), low ≤ high →
    ∀ x ∈ probePath k fuel low high, low ≤ x ∧ x < high := by
  intro fuel
  induction fuel with
  | zero => intro low high _ x hx; simp [probePath] at hx
  | succ fuel ih =>
    intro low high hle x hx
    by_cases heq : low = high
    · simp [probePath, heq] at hx
    · simp only [probePath, heq, if_false, List.mem_cons] at hx
      rcases hx with rfl | hx
      · omega
      · split at hx
        · have := ih _ _ (by omega) x hx
          omega
        · have := ih _ _ (by omega) x hx
          omega

theorem searchLoop_corrupt (mem : Nat → UInt8) (off k j : Nat) :
    ∀ (fuel low high : Nat) (s : State),
      s.storeFile = true → (∀ n, s.dev.fault n = none) → s.dev.mem = mem →
      1 ≤ low → low ≤ j → j < k → k ≤ high → high - low ≤ fuel →
      (∀ i, low - 1 ≤ i → i < k → i ≠ j →
        ValidBlock (blockAt mem (off + storeBlockSize * i))) →
      (∀ i i2, low - 1 ≤ i → i < i2 → i2 < k → i ≠ j → i2 ≠ j →
        blkSeq (blockAt mem (off + storeBlockSize * i))
          < blkSeq (blockAt mem (off + storeBlockSize * i2))) →
      ¬ ValidBlock (blockAt mem (off + storeBlockSize * j)) →
      (∀ i, k ≤ i → i < high → ¬ ValidBlock (blockAt mem (off + storeBlockSize * i))) →
      s.prevSequence = blkSeq (blockAt mem (off + storeBlockSize * (low - 1))) →
      s.prevContent = blkContent (blockAt mem (off + storeBlockSize * (low - 1))) →
      ∃ t, searchLoop off fuel low high s
          = some (.ok (if j ∈ probePath k fuel low high then j else k), t) ∧
        ReadsOnly s t ∧
        t.prevSequence = blkSeq (blockAt mem
          (off + storeBlockSize * ((if j ∈ probePath k fuel low high then j else k) - 1))) ∧
        t.prevContent = blkContent (blockAt mem
          (off + storeBlockSize * ((if j ∈ probePath k fuel low high then j else k) - 1))) := by
  intro fuel
  induction fuel with
  | zero =>
    intro low high s _ _ _ _ hlj hjk hkh hfu
    omega
  | succ fuel ih =>
    intro low high s ho hf hmem hl hlj hjk hkh hfu hval hmono hbad hrej hq hc
    have heq : low ≠ high := by omega
    have hmid1 : low ≤ (low + high) / 2 := by omega
    have hmid2 : (low + high) / 2 < high := by omega
    simp only [searchLoop, probePath, heq, if_false]
    by_cases hmj : (low + high) / 2 = j
    · -- the corrupted slot is probed: the search continues below it
      have hrj : ¬ Accepts (blockAt s.dev.mem (off + storeBlockSize * ((low + high) / 2)))
          s.prevSequence := by
        rw [hmem, hmj]; exact fun h => hbad h.1
      rw [readBlockAt_rejected _ s ho hf hrj]
      simp only
      obtain ⟨t, ht, hr, hq2, hc2⟩ := searchLoop_boundary mem off j fuel low
        ((low + high) / 2) (s.afterRead _) ho hf hmem hl hlj (by omega) (by omega)
        (fun i hi1 hi2 => hval i hi1 (by omega) (by omega))
        (fun i i2 hi1 hi2 hi3 => hmono i i2 hi1 hi2 (by omega) (by omega) (by omega))
        (fun i hi1 hi2 => by omega) hq hc
      have hin : j ∈ (low + high) / 2 ::
          (if (low + high) / 2 < k then probePath k fuel ((low + high) / 2 + 1) high
            else probePath k fuel low ((low + high) / 2)) := by
        rw [hmj]; exact List.mem_cons_self _ _
      rw [if_pos hin]
      exact ⟨t, ht, readsOnly_trans (readsOnly_afterRead s _) hr, hq2, hc2⟩
    · have hmem_iff : ∀ l : List Nat, (j ∈ (low + high) / 2 :: l) ↔ j ∈ l := by
        intro l
        simp only [List.mem_cons]
        constructor
        · rintro (h | h)
          · exact absurd h.symm hmj
          · exact h
        · exact Or.inr
      by_cases hk : (low + high) / 2 < k
      · have hacc : Accepts (blockAt s.dev.mem (off + storeBlockSize * ((low + high) / 2)))
            s.prevSequence := by
          rw [hmem, hq]
          refine ⟨hval _ (by omega) hk hmj, ?_⟩
          exact hmono _ _ (le_refl _) (by omega) hk (by omega) hmj
        rw [readBlockAt_found _ s ho hf hacc]
        simp only [hk, if_true]
        by_cases hlt : (low + high) / 2 < j
        · obtain ⟨t, ht, hr, hq2, hc2⟩ := ih ((low + high) / 2 + 1) high
            ((s.afterRead _).cache
              (blockAt s.dev.mem (off + storeBlockSize * ((low + high) / 2))))
            ho hf hmem (by omega) (by omega) hjk hkh (by omega)
            (fun i hi1 hi2 hi3 => hval i (by omega) hi2 hi3)
            (fun i i2 hi1 hi2 hi3 hi4 hi5 => hmono i i2 (by omega) hi2 hi3 hi4 hi5)
            hbad hrej
            (by simp only [Nat.add_sub_cancel, State.cache, hmem])
            (by simp only [Nat.add_sub_cancel, State.cache, hmem])
          simp only [hmem_iff]
          exact ⟨t, ht, readsOnly_trans (readsOnly_cache s _ _) hr, hq2, hc2⟩
        · -- the search has jumped over the corrupted slot and never reads it
          have hnot : j ∉ probePath k fuel ((low + high) / 2 + 1) high := by
            intro hin
            have := probePath_bounds k fuel _ _ (by omega) j hin
            omega
          obtain ⟨t, ht, hr, hq2, hc2⟩ := searchLoop_boundary mem off k fuel
            ((low + high) / 2 + 1) high
            ((s.afterRead _).cache
              (blockAt s.dev.mem (off + storeBlockSize * ((low + high) / 2))))
            ho hf hmem (by omega) (by omega) hkh (by omega)
            (fun i hi1 hi2 => hval i (by omega) hi2 (by omega))
            (fun i i2 hi1 hi2 hi3 => hmono i i2 (by omega) hi2 hi3 (by omega) (by omega))
            (fun i hi1 hi2 h => hrej i hi1 hi2 h.1)
            (by simp only [Nat.add_sub_cancel, State.cache, hmem])
            (by simp only [Nat.add_sub_cancel, State.cache, hmem])
          simp only [hmem_iff, hnot, if_false]
          exact ⟨t, ht, readsOnly_trans (readsOnly_cache s _ _) hr, hq2, hc2⟩
      · have hrj : ¬ Accepts (blockAt s.dev.mem (off + storeBlockSize * ((low + high) / 2)))
            s.prevSequence := by
          rw [hmem]; exact fun h => hrej _ (by omega) hmid2 h.1
        rw [readBlockAt_rejected _ s ho hf hrj]
        simp only [hk, if_false]
        obtain ⟨t, ht, hr, hq2, hc2⟩ := ih low ((low + high) / 2) (s.afterRead _)
          ho hf hmem hl hlj hjk (by omega) (by omega) hval hmono hbad
          (fun i hi1 hi2 => hrej i hi1 (by omega)) hq hc
        simp only [hmem_iff]
        exact ⟨t, ht, readsOnly_trans (readsOnly_afterRead s _) hr, hq2, hc2⟩

/-- C10, counterexample. Region 0 holds blocks with sequence numbers 1, 2, 3 in
slots 0, 1, 2 (`k = 3`), slot 1 (`j = 1`) has a wrong checksum, all other slots
are erased. The specification promises the content of slot 0 and
`prevBlock = 0`; the
binary search never reads slot 1, and `loadData` returns the content of slot 2
with `prevBlock = 2`. -/
theorem loadData_skips_corrupt_slot :
    ValidBlock (slotBlock corruptMiddleMem 0 0) ∧ ValidBlock (slotBlock corruptMiddleMem 0 2) ∧
      (blkMagic (slotBlock corruptMiddleMem 0 1) = storeMagic ∧
        blkLen (slotBlock corruptMiddleMem 0 1) ≤ storeContentSize ∧
        blkHash (slotBlock corruptMiddleMem 0 1)
          ≠ calcBlockHash (blkSeq (slotBlock corruptMiddleMem 0 1))
              (blkContent (slotBlock corruptMiddleMem 0 1))) ∧
      (blkSeq (slotBlock corruptMiddleMem 0 0) = 1 ∧ blkSeq (slotBlock corruptMiddleMem 0 1) = 2
        ∧ blkSeq (slotBlock corruptMiddleMem 0 2) = 3) ∧
      (∀ i, 3 ≤ i → i < blocksPerEraseblock → ¬ ValidBlock (slotBlock corruptMiddleMem 0 i)) ∧
      ¬ ValidBlock (slotBlock corruptMiddleMem 1 0) ∧
      blkContent (slotBlock corruptMiddleMem 0 0) = [10] ∧
      (loadData (fresh (goodDevice corruptMiddleMem true))).map
          (fun r => (r.1, r.2.prevBlock)) = some (.ok [30], 2) := by
  refine ⟨by decide!, by decide!, by decide!, by decide!, ?_, ?_, by decide!, by decide!⟩
  · intro i h1 h2
    have h : slotBlock corruptMiddleMem 0 i = fun _ => 0 := by
      unfold corruptMiddleMem
      rw [slotBlock_overlay_other _ _ _ _ _ _ h2 (by decide) (Or.inr (by omega)),
        slotBlock_overlay_other _ _ _ _ _ _ h2 (by decide) (Or.inr (by omega)),
        slotBlock_overlay_other _ _ _ _ _ _ h2 (by decide) (Or.inr (by omega))]
      exact slotBlock_zeroMem _ _
    rw [h]; exact zero_not_valid
  · have h : slotBlock corruptMiddleMem 1 0 = fun _ => 0 := by
      unfold corruptMiddleMem
      rw [slotBlock_overlay_other _ _ _ _ _ _ (by decide) (by decide) (Or.inl (by omega)),
        slotBlock_overlay_other _ _ _ _ _ _ (by decide) (by decide) (Or.inl (by omega)),
        slotBlock_overlay_other _ _ _ _ _ _ (by decide) (by decide) (Or.inl (by omega))]
      exact slotBlock_zeroMem _ _
    rw [h]; exact zero_not_valid

/-- C10 (amended). Let `3 ≤ k ≤ 256`, `1 ≤ j < k-1` and `r ∈ {0, 1}`. On a
working device, suppose the slots `0..k-1` of region `r` other than `j` hold
valid blocks with strictly increasing sequence numbers, the first of them at
least 1, slot `j` fails validation, the slots `k..255` are invalid and slot 0 of
the other region is invalid or has a smaller sequence number. Then `loadData`
from the fresh state treats slot `j` as the end of the valid data exactly when
its binary search probes slot `j`, that is when `j` lies on the probe path
towards `k`: it then returns the content of slot `j-1` with `prevBlock = j-1`.
Otherwise slot `j` is never read and `loadData` returns the content of slot
`k-1` with `prevBlock = k-1`. -/
theorem loadData_corrupt_slot (d : Device) (r k j : Nat) (hd : d.Reliable)
    (hr : r ≤ 1) (hk3 : 3 ≤ k) (hk : k ≤ blocksPerEraseblock) (hj1 : 1 ≤ j) (hj : j < k - 1)
    (hval : ∀ i, i < k → i ≠ j → ValidBlock (slotBlock d.mem r i))
    (hmono : ∀ i i2, i < i2 → i2 < k → i ≠ j → i2 ≠ j →
      blkSeq (slotBlock d.mem r i) < blkSeq (slotBlock d.mem r i2))
    (hpos : 1 ≤ blkSeq (slotBlock d.mem r 0))
    (hbad : ¬ ValidBlock (slotBlock d.mem r j))
    (hinv : ∀ i, k ≤ i → i < blocksPerEraseblock → ¬ ValidBlock (slotBlock d.mem r i))
    (hother : ¬ ValidBlock (slotBlock d.mem (1 - r) 0)
      ∨ blkSeq (slotBlock d.mem (1 - r) 0) < blkSeq (slotBlock d.mem r 0)) :
    ∃ t, loadData (fresh d) = some (.ok (blkContent (slotBlock d.mem r
          ((if j ∈ probePath k blocksPerEraseblock 1 blocksPerEraseblock then j else k) - 1))),
          t) ∧
      t.prevBlock
        = (if j ∈ probePath k blocksPerEraseblock 1 blocksPerEraseblock then j else k) - 1 ∧
      t.prevEraseblock = r ∧
      t.prevSequence = blkSeq (slotBlock d.mem r
        ((if j ∈ probePath k blocksPerEraseblock 1 blocksPerEraseblock then j else k) - 1)) ∧
      t.prevContent = blkContent (slotBlock d.mem r
        ((if j ∈ probePath k blocksPerEraseblock 1 blocksPerEraseblock then j else k) - 1)) := by
  obtain ⟨hopen, hf⟩ := hd
  obtain ⟨t1, ht1, hr1, hq1, hc1⟩ := probeRegions_some
    { fresh d with storeFile := true } r rfl hf rfl hr (hval 0 (by omega) (by omega)) hpos
    (fun h => by
      rcases hother with h2 | h2
      · exact absurd h h2
      · exact h2)
  have hmem1 : t1.dev.mem = d.mem := hr1.mem
  have hf1 : ∀ n, t1.dev.fault n = none := by
    intro n; rw [hr1.fault]; exact hf n
  obtain ⟨t2, ht2, hr2, hq2, hc2⟩ := searchLoop_corrupt d.mem (eraseblockSize * r) k j
    blocksPerEraseblock 1 blocksPerEraseblock t1 hr1.storeFile hf1 hmem1
    (le_refl 1) hj1 (by omega) hk (by omega)
    (fun i _ hi hij => hval i hi hij)
    (fun i i2 _ h1 h2 h3 h4 => hmono i i2 h1 h2 h3 h4)
    hbad
    (fun i h1 h2 => hinv i h1 h2)
    (by simpa [slotBlock, slotAddr] using hq1)
    (by simpa [slotBlock, slotAddr] using hc1)
  refine ⟨{ t2 with
    prevBlock := (if j ∈ probePath k blocksPerEraseblock 1 blocksPerEraseblock then j else k) - 1,
    prevEraseblock := r }, ?_, rfl, rfl, hq2, hc2⟩
  have h0 : ¬ ((fresh d).storeFile = false ∧ (fresh d).dev.openErr = true) := by
    simp [fresh, hopen]
  simp only [loadData, if_neg h0]
  rw [ht1]
  simp only
  rw [ht2]
  simp only [hc2]
  rfl

/-- Witness for C10 (amended): three blocks with the middle one corrupted
(`k = 3`, `j = 1`, `r = 0`). -/
theorem loadData_corrupt_slot_witness :
    ∃ t, loadData (fresh (goodDevice corruptMiddleMem true))
        = some (.ok (blkContent (slotBlock (goodDevice corruptMiddleMem true).mem 0
          ((if 1 ∈ probePath 3 blocksPerEraseblock 1 blocksPerEraseblock then 1 else 3) - 1))),
          t) ∧
      t.prevBlock
        = (if 1 ∈ probePath 3 blocksPerEraseblock 1 blocksPerEraseblock then 1 else 3) - 1 ∧
      t.prevEraseblock = 0 ∧
      t.prevSequence = blkSeq (slotBlock (goodDevice corruptMiddleMem true).mem 0
        ((if 1 ∈ probePath 3 blocksPerEraseblock 1 blocksPerEraseblock then 1 else 3) - 1)) ∧
      t.prevContent = blkContent (slotBlock (goodDevice corruptMiddleMem true).mem 0
        ((if 1 ∈ probePath 3 blocksPerEraseblock 1 blocksPerEraseblock then 1 else 3) - 1)) :=
  loadData_corrupt_slot (goodDevice corruptMiddleMem true) 0 3 1 ⟨rfl, fun _ => rfl⟩
    (by decide) (by decide) (by decide) (by decide) (by decide)
    (by
      intro i hi hne
      have : i = 0 ∨ i = 2 := by omega
      rcases this with rfl | rfl <;> decide!)
    (by
      intro i i2 h1 h2 h3 h4
      have : i = 0 ∧ i2 = 2 := by omega
      obtain ⟨rfl, rfl⟩ := this
      decide!)
    (by decide!) (by decide!)
    (by
      intro i h1 h2
      have h : slotBlock (goodDevice corruptMiddleMem true).mem 0 i = fun _ => 0 := by
        show slotBlock corruptMiddleMem 0 i = _
        unfold corruptMiddleMem
        rw [slotBlock_overlay_other _ _ _ _ _ _ h2 (by decide) (Or.inr (by omega)),
          slotBlock_overlay_other _ _ _ _ _ _ h2 (by decide) (Or.inr (by omega)),
          slotBlock_overlay_other _ _ _ _ _ _ h2 (by decide) (Or.inr (by omega))]
        exact slotBlock_zeroMem _ _
      rw [h]; exact zero_not_valid)
    (Or.inl (by decide!))

/-! ## The checksum of a stored block, and torn blocks -/

theorem slice_congr (b c : Block) (off n : Nat)
    (h : ∀ i, off ≤ i → i < off + n → b i = c i) : slice b off n = slice c off n := by
  simp only [slice]
  apply List.map_congr_left
  intro i hi
  exact h (off + i) (by omega) (by have := List.mem_range.mp hi; omega)

theorem slice_eq_elim (b c : Block) (off n : Nat) (h : slice b off n = slice c off n)
    (k : Nat) (hk : k < n) : b (off + k) = c (off + k) := by
  simp only [slice] at h
  exact List.map_inj_left.mp h k (List.mem_range.mpr hk)

theorem slice_append (b : Block) (off m n : Nat) :
    slice b off (m + n) = slice b off m ++ slice b (off + m) n := by
  simp [slice, List.range_add, Nat.add_assoc, Function.comp]

theorem beByte_beUint64 (b : Block) (off k : Nat) (hk : k < 8) :
    beByte (beUint64 b off) k = b (off + k) := by
  apply UInt8.ext
  rw [beByte_toNat]
  have h0 := uint8_toNat_lt (b off)
  have h1 := uint8_toNat_lt (b (off + 1))
  have h2 := uint8_toNat_lt (b (off + 2))
  have h3 := uint8_toNat_lt (b (off + 3))
  have h4 := uint8_toNat_lt (b (off + 4))
  have h5 := uint8_toNat_lt (b (off + 5))
  have h6 := uint8_toNat_lt (b (off + 6))
  have h7 := uint8_toNat_lt (b (off + 7))
  simp only [beUint64]
  interval_cases k <;> simp <;> omega

/-- The checksum `readBlockAt` recomputes for a block is the CRC of the bytes of
the block from offset 24 (sequence number, then content). -/
theorem blockHash_fold (b : Block) :
    calcBlockHash (blkSeq b) (blkContent b)
      = crc64Fold (slice b 24 (8 + blkLen b)) ^^^ (2 ^ 64 - 1) := by
  have hs : (List.range 8).map (beByte (blkSeq b)) = slice b 24 8 := by
    simp only [slice]
    apply List.map_congr_left
    intro k hk
    exact beByte_beUint64 b 24 k (List.mem_range.mp hk)
  rw [calcBlockHash_fold, hs, slice_append]
  rfl

theorem encodeBlock_zero_after (q : Nat) (p : List UInt8) (i : Nat)
    (hi : 32 + p.length ≤ i) : encodeBlock q p i = 0 := by
  have a1 : ¬ (4 * 8 ≤ i ∧ i < 4 * 8 + p.length) := by omega
  have a2 : ¬ (3 * 8 ≤ i ∧ i < 3 * 8 + 8) := by omega
  have a3 : ¬ (2 * 8 ≤ i ∧ i < 2 * 8 + 8) := by omega
  have a4 : ¬ (1 * 8 ≤ i ∧ i < 1 * 8 + 8) := by omega
  have a5 : ¬ (0 * 8 ≤ i ∧ i < 0 * 8 + 8) := by omega
  simp only [encodeBlock, copyAt, putUint64, a1, a2, a3, a4, a5, if_false]

theorem torn_seq_zero (n : Nat) (b : Block) (hn : n ≤ 24) : blkSeq (torn n b) = 0 := by
  have h : ∀ i, 24 ≤ i → torn n b i = 0 := by
    intro i hi
    have : ¬ i < n := by omega
    simp [torn, this]
  simp [blkSeq, beUint64, h]

/-- A block of `storeData` of which at least the first 24 bytes and all but at
most the last eight bytes of sequence number and content reached the device
passes the checksum test only when nothing of it was lost. -/
theorem torn_valid_eq (n q : Nat) (p : List UInt8) (hq : q < 2 ^ 64)
    (hp : p.length ≤ storeContentSize) (hn : 24 + p.length ≤ n)
    (hv : ValidBlock (torn n (encodeBlock q p))) :
    torn n (encodeBlock q p) = encodeBlock q p := by
  have hlow : ∀ i, i < n → torn n (encodeBlock q p) i = encodeBlock q p i := by
    intro i hi
    simp [torn, hi]
  have hlen : blkLen (torn n (encodeBlock q p)) = p.length := by
    rw [← encodeBlock_len q p hp]
    exact beUint64_congr _ _ _ (fun i _ h2 => hlow i (by omega))
  have hhash : blkHash (torn n (encodeBlock q p)) = blkHash (encodeBlock q p) :=
    beUint64_congr _ _ _ (fun i _ h2 => hlow i (by omega))
  have hB := (encodeBlock_valid q p hq hp).2.2
  have hT := hv.2.2
  rw [blockHash_fold, encodeBlock_len q p hp] at hB
  rw [blockHash_fold, hlen, hhash, hB] at hT
  have hfold : crc64Fold (slice (encodeBlock q p) 24 (8 + p.length))
      = crc64Fold (slice (torn n (encodeBlock q p)) 24 (8 + p.length)) := by
    have := congrArg (fun x => x ^^^ (2 ^ 64 - 1)) hT
    simpa only [xor_cancel] using this
  have hzero : ∀ i, n ≤ i → i < 32 + p.length → encodeBlock q p i = 0 := by
    intro i hi1 hi2
    have hsplit : 8 + p.length = (n - 24) + (32 + p.length - n) := by omega
    rw [hsplit, slice_append, slice_append,
      slice_congr (torn n (encodeBlock q p)) (encodeBlock q p) 24 (n - 24)
        (fun j _ hj => hlow j (by omega))] at hfold
    have htail := crc64Fold_tail_inj _ _ _ (by simp [slice]) (by simp [slice]; omega) hfold
    have := slice_eq_elim _ _ _ _ htail (i - n) (by omega)
    have e : 24 + (n - 24) + (i - n) = i := by omega
    rw [e] at this
    rw [this]
    have : ¬ i < n := by omega
    simp [torn, this]
  funext i
  by_cases hi : i < n
  · exact hlow i hi
  · have h0 : torn n (encodeBlock q p) i = 0 := by simp [torn, hi]
    rw [h0]
    by_cases hi2 : i < 32 + p.length
    · exact (hzero i (by omega) hi2).symm
    · exact (encodeBlock_zero_after q p i (by omega)).symm

/-- C7, counterexample. Slot 0 of region 0 holds a valid block (sequence 1,
content `[10]`). The block `storeData` would write next (sequence 2) has a
payload of nine bytes that form a multiple of the CRC-64 polynomial; only its
32 header bytes reach slot 1, the rest stays zero, so the stored bytes differ
from the intended block. The checksum still matches: `readBlockAt` accepts
slot 1 and `loadData` returns nine zero bytes, not the content of slot 0. -/
theorem loadData_accepts_torn_block :
    ValidBlock (slotBlock tornMem 0 0) ∧ blkSeq (slotBlock tornMem 0 0) = 1 ∧
      blkContent (slotBlock tornMem 0 0) = [10] ∧
      collidingPayload.length ≤ storeContentSize ∧ 32 < storeBlockSize ∧
      slotBlock tornMem 0 1 = torn 32 (encodeBlock 2 collidingPayload) ∧
      torn 32 (encodeBlock 2 collidingPayload) 32 ≠ encodeBlock 2 collidingPayload 32 ∧
      (∀ j, 2 ≤ j → j < blocksPerEraseblock → slotBlock tornMem 0 j = fun _ => 0) ∧
      slotBlock tornMem 1 0 = (fun _ => 0) ∧
      Accepts (slotBlock tornMem 0 1) 1 ∧
      (loadData (fresh (goodDevice tornMem true))).map (fun r => (r.1, r.2.prevBlock))
        = some (.ok [0, 0, 0, 0, 0, 0, 0, 0, 0], 1) := by
  refine ⟨by decide!, by decide!, by decide!, by decide, by decide, ?_, by decide!, ?_, ?_,
    by decide!, by decide!⟩
  · unfold tornMem
    apply blockAt_overlay_self
    intro i hi
    have h2 : storeBlockSize = 16384 := by decide
    have : ¬ i < 32 := by omega
    simp [torn, this]
  · intro j h1 h2
    unfold tornMem
    rw [slotBlock_overlay_other _ _ _ _ _ _ h2 (by decide) (Or.inr (by omega)),
      slotBlock_overlay_other _ _ _ _ _ _ h2 (by decide) (Or.inr (by omega))]
    exact slotBlock_zeroMem _ _
  · unfold tornMem
    rw [slotBlock_overlay_other _ _ _ _ _ _ (by decide) (by decide) (Or.inl (by omega)),
      slotBlock_overlay_other _ _ _ _ _ _ (by decide) (by decide) (Or.inl (by omega))]
    exact slotBlock_zeroMem _ _

/-- C7 (amended). Let `0 ≤ i < 255` and `r ∈ {0, 1}`. On a working device,
suppose slots `0..i` of region `r` hold valid blocks with strictly increasing
sequence numbers starting at 1 or more, slot `i+1` holds the first `n` bytes of
the block `storeData` would write there (sequence one greater, payload of at
most 16352 bytes) followed by zeroes, the stored bytes differ from the intended
block, the later slots are invalid and slot 0 of the other region is invalid or
has a smaller sequence number. If the tear is in the first 24 bytes (`n ≤ 24`,
the sequence number did not arrive), or at most the last eight bytes of sequence
number and payload are missing (`n ≥ 24 + len(payload)`), then `readBlockAt`
rejects slot `i+1` whatever `prevSequence` is, and `loadData` from the fresh
state returns the content of slot `i` without error and leaves the cursor at
`prevBlock = i`, so that the next write goes to slot `i+1`. -/
theorem loadData_torn_write (d : Device) (r i n : Nat) (p : List UInt8) (hd : d.Reliable)
    (hr : r ≤ 1) (hi : i < blocksPerEraseblock - 1) (hp : p.length ≤ storeContentSize)
    (hval : ∀ a, a ≤ i → ValidBlock (slotBlock d.mem r a))
    (hmono : ∀ a b, a < b → b ≤ i →
      blkSeq (slotBlock d.mem r a) < blkSeq (slotBlock d.mem r b))
    (hpos : 1 ≤ blkSeq (slotBlock d.mem r 0))
    (htorn : slotBlock d.mem r (i + 1)
      = torn n (encodeBlock ((blkSeq (slotBlock d.mem r i) + 1) % 2 ^ 64) p))
    (hdiff : torn n (encodeBlock ((blkSeq (slotBlock d.mem r i) + 1) % 2 ^ 64) p)
      ≠ encodeBlock ((blkSeq (slotBlock d.mem r i) + 1) % 2 ^ 64) p)
    (hcond : n ≤ 24 ∨ 24 + p.length ≤ n)
    (hinv : ∀ j, i + 2 ≤ j → j < blocksPerEraseblock → ¬ ValidBlock (slotBlock d.mem r j))
    (hother : ¬ ValidBlock (slotBlock d.mem (1 - r) 0)
      ∨ blkSeq (slotBlock d.mem (1 - r) 0) < blkSeq (slotBlock d.mem r 0)) :
    (∀ s : State, s.storeFile = true → (∀ m, s.dev.fault m = none) → s.dev.mem = d.mem →
        readBlockAt (slotAddr r (i + 1)) s = (.ok false, s.afterRead (slotAddr r (i + 1)))) ∧
      ∃ t, loadData (fresh d) = some (.ok (blkContent (slotBlock d.mem r i)), t) ∧
        t.prevSequence = blkSeq (slotBlock d.mem r i) ∧
        t.prevContent = blkContent (slotBlock d.mem r i) ∧
        t.prevEraseblock = r ∧ t.prevBlock = i := by
  have hrej : ∀ q, ¬ Accepts (slotBlock d.mem r (i + 1)) q := by
    intro q h
    rcases hcond with hc | hc
    · have := h.2
      rw [htorn, torn_seq_zero n _ hc] at this
      omega
    · have hv := h.1
      rw [htorn] at hv
      exact hdiff (torn_valid_eq n _ p (Nat.mod_lt _ (by decide)) hp hc hv)
  refine ⟨?_, ?_⟩
  · intro s hs hf hmem
    exact readBlockAt_rejected _ s hs hf (by rw [hmem]; exact hrej _)
  · obtain ⟨t, ht, hq, hc, he, hb, _⟩ := loadData_spec d r (i + 1) hd hr (by omega)
      (by omega) (fun a ha => hval a (by omega))
      (fun a b hab hb => hmono a b hab (by omega)) hpos
      (fun j hj1 hj2 => by
        rcases Nat.eq_or_lt_of_le hj1 with h | h
        · rw [← h]; exact hrej _
        · exact fun hacc => hinv j (by omega) hj2 hacc.1)
      (fun h => by
        rcases hother with h2 | h2
        · exact absurd h h2
        · exact h2)
    exact ⟨t, ht, hq, hc, he, hb⟩

/-- Witness for C7 (amended): the block of sequence 2 with payload
`[20, 21, 22]` torn after 33 bytes, inside the payload, where only the checksum
can tell; and the block of sequence 2 with payload `[20]` torn after 20 bytes,
inside the header. -/
theorem loadData_torn_write_witness :
    ((∀ s : State, s.storeFile = true → (∀ m, s.dev.fault m = none) →
        s.dev.mem = (goodDevice tornTailMem true).mem →
        readBlockAt (slotAddr 0 (0 + 1)) s = (.ok false, s.afterRead (slotAddr 0 (0 + 1)))) ∧
      ∃ t, loadData (fresh (goodDevice tornTailMem true))
          = some (.ok (blkContent (slotBlock (goodDevice tornTailMem true).mem 0 0)), t) ∧
        t.prevSequence = blkSeq (slotBlock (goodDevice tornTailMem true).mem 0 0) ∧
        t.prevContent = blkContent (slotBlock (goodDevice tornTailMem true).mem 0 0) ∧
        t.prevEraseblock = 0 ∧ t.prevBlock = 0) ∧
    ((∀ s : State, s.storeFile = true → (∀ m, s.dev.fault m = none) →
        s.dev.mem = (goodDevice tornEarlyMem true).mem →
        readBlockAt (slotAddr 0 (0 + 1)) s = (.ok false, s.afterRead (slotAddr 0 (0 + 1)))) ∧
      ∃ t, loadData (fresh (goodDevice tornEarlyMem true))
          = some (.ok (blkContent (slotBlock (goodDevice tornEarlyMem true).mem 0 0)), t) ∧
        t.prevSequence = blkSeq (slotBlock (goodDevice tornEarlyMem true).mem 0 0) ∧
        t.prevContent = blkContent (slotBlock (goodDevice tornEarlyMem true).mem 0 0) ∧
        t.prevEraseblock = 0 ∧ t.prevBlock = 0) :=
  ⟨loadData_torn_write (goodDevice tornTailMem true) 0 0 33 [20, 21, 22] ⟨rfl, fun _ => rfl⟩
      (by decide) (by decide) (by decide)
      (by
        intro a ha
        have : a = 0 := by omega
        subst this
        decide!)
      (by intro a b h1 h2; omega)
      (by decide!)
      (by
        have hs : blkSeq (slotBlock (goodDevice tornTailMem true).mem 0 0) = 1 := by decide!
        rw [hs]
        show slotBlock tornTailMem 0 (0 + 1) = _
        unfold tornTailMem
        apply blockAt_overlay_self
        intro i hi
        have h2 : storeBlockSize = 16384 := by decide
        have : ¬ i < 33 := by omega
        simp [torn, this])
      (by
        have hs : blkSeq (slotBlock (goodDevice tornTailMem true).mem 0 0) = 1 := by decide!
        rw [hs]
        intro h
        exact absurd (congrFun h 33) (by decide!))
      (Or.inr (by decide))
      (by
        intro j h1 h2
        have h : slotBlock (goodDevice tornTailMem true).mem 0 j = fun _ => 0 := by
          show slotBlock tornTailMem 0 j = _
          unfold tornTailMem
          rw [slotBlock_overlay_other _ _ _ _ _ _ h2 (by decide) (Or.inr (by omega)),
            slotBlock_overlay_other _ _ _ _ _ _ h2 (by decide) (Or.inr (by omega))]
          exact slotBlock_zeroMem _ _
        rw [h]; exact zero_not_valid)
      (Or.inl (by decide!)),
    loadData_torn_write (goodDevice tornEarlyMem true) 0 0 20 [20] ⟨rfl, fun _ => rfl⟩
      (by decide) (by decide) (by decide)
      (by
        intro a ha
        have : a = 0 := by omega
        subst this
        decide!)
      (by intro a b h1 h2; omega)
      (by decide!)
      (by
        have hs : blkSeq (slotBlock (goodDevice tornEarlyMem true).mem 0 0) = 1 := by decide!
        rw [hs]
        show slotBlock tornEarlyMem 0 (0 + 1) = _
        unfold tornEarlyMem
        apply blockAt_overlay_self
        intro i hi
        have h2 : storeBlockSize = 16384 := by decide
        have : ¬ i < 20 := by omega
        simp [torn, this])
      (by
        have hs : blkSeq (slotBlock (goodDevice tornEarlyMem true).mem 0 0) = 1 := by decide!
        rw [hs]
        intro h
        exact absurd (congrFun h 31) (by decide!))
      (Or.inl (by decide))
      (by
        intro j h1 h2
        have h : slotBlock (goodDevice tornEarlyMem true).mem 0 j = fun _ => 0 := by
          show slotBlock tornEarlyMem 0 j = _
          unfold tornEarlyMem
          rw [slotBlock_overlay_other _ _ _ _ _ _ h2 (by decide) (Or.inr (by omega)),
            slotBlock_overlay_other _ _ _ _ _ _ h2 (by decide) (Or.inr (by omega))]
          exact slotBlock_zeroMem _ _
        rw [h]; exact zero_not_valid)
      (Or.inl (by decide!))⟩

/-! ## `storeData` keeps the device image consistent -/

theorem stored_fields (s : State) (p : List UInt8) :
    (s.stored p).prevSequence = (s.prevSequence + 1) % 2 ^ 64 ∧
      (s.stored p).prevContent = p ∧ (s.stored p).storeFile = s.storeFile ∧
      (s.stored p).dev.fault = s.dev.fault ∧ (s.stored p).dev.openErr = s.dev.openErr ∧
      (s.stored p).dev.discardZeroes = s.dev.discardZeroes := by
  simp only [State.stored]
  split <;> simp

theorem stored_noswitch (s : State) (p : List UInt8)
    (h : ¬ s.prevBlock + 1 ≥ blocksPerEraseblock) :
    (s.stored p).prevBlock = s.prevBlock + 1 ∧ (s.stored p).prevEraseblock = s.prevEraseblock ∧
      (s.stored p).dev.mem = Device.overlay s.dev.mem
        (slotAddr s.prevEraseblock (s.prevBlock + 1)) storeBlockSize
        (encodeBlock ((s.prevSequence + 1) % 2 ^ 64) p) ∧
      (s.stored p).dev.log = s.dev.log ++
        [Op.write (slotAddr s.prevEraseblock (s.prevBlock + 1))
          (encodeBlock ((s.prevSequence + 1) % 2 ^ 64) p), Op.sync] := by
  simp [State.stored, h, advance, slotAddr, Nat.mul_comm]

theorem stored_switch (s : State) (p : List UInt8)
    (h : s.prevBlock + 1 ≥ blocksPerEraseblock) :
    (s.stored p).prevBlock = 0 ∧ (s.stored p).prevEraseblock = 1 - s.prevEraseblock ∧
      (s.stored p).dev.mem = Device.overlay
        (if s.dev.discardZeroes then
          Device.overlay s.dev.mem (slotAddr (1 - s.prevEraseblock) 0) eraseblockSize
            (fun _ => 0)
         else s.dev.mem)
        (slotAddr (1 - s.prevEraseblock) 0) storeBlockSize
        (encodeBlock ((s.prevSequence + 1) % 2 ^ 64) p) ∧
      (s.stored p).dev.log = s.dev.log ++
        [Op.discard (slotAddr (1 - s.prevEraseblock) 0) eraseblockSize,
          Op.write (slotAddr (1 - s.prevEraseblock) 0)
            (encodeBlock ((s.prevSequence + 1) % 2 ^ 64) p), Op.sync] := by
  simp [State.stored, h, advance, slotAddr, Nat.mul_comm]

theorem written_stored_noswitch (s : State) (p : List UInt8) (hw : Written s)
    (hp : p.length ≤ storeContentSize) (hq : s.prevSequence + 1 < 2 ^ 64)
    (h : ¬ s.prevBlock + 1 ≥ blocksPerEraseblock) : Written (s.stored p) := by
  obtain ⟨hq', hc', hs', _, _, _⟩ := stored_fields s p
  obtain ⟨hb', he', hm', _⟩ := stored_noswitch s p h
  have hqq : (s.prevSequence + 1) % 2 ^ 64 = s.prevSequence + 1 := Nat.mod_eq_of_lt hq
  rw [hqq] at hq' hm'
  have hlow := hw.seqLow
  have hN : blocksPerEraseblock = 256 := by decide
  refine ⟨hs'.trans hw.storeFile, by rw [he']; exact hw.region, by rw [hb']; omega,
    by rw [hb', hq']; omega, by rw [hq']; exact hq, ?_, ?_, ?_, ?_, ?_⟩
  · intro i hi
    rw [hb'] at hi
    rw [hm', he']
    rcases Nat.eq_or_lt_of_le hi with h1 | h1
    · rw [h1, slotBlock_overlay_self _ _ _ _ _ hp]
      exact encodeBlock_valid _ _ hq hp
    · rw [slotBlock_overlay_other _ _ _ _ _ _ (by omega) (by omega) (Or.inr (by omega))]
      exact hw.valid i (by omega)
  · intro i hi
    rw [hb'] at hi
    rw [hm', he', hq', hb']
    rcases Nat.eq_or_lt_of_le hi with h1 | h1
    · rw [h1, slotBlock_overlay_self _ _ _ _ _ hp, encodeBlock_seq _ _ hq]
      omega
    · rw [slotBlock_overlay_other _ _ _ _ _ _ (by omega) (by omega) (Or.inr (by omega)),
        hw.seq i (by omega)]
      omega
  · rw [hm', he', hb', hc', slotBlock_overlay_self _ _ _ _ _ hp]
    exact encodeBlock_content _ _ hp
  · intro j hj1 hj2
    rw [hb'] at hj1
    rw [hm', he', hq', hb',
      slotBlock_overlay_other _ _ _ _ _ _ hj2 (by omega) (Or.inr (by omega))]
    have := hw.later j (by omega) hj2
    have e : s.prevSequence + 1 - (s.prevBlock + 1) = s.prevSequence - s.prevBlock := by omega
    rw [e]; exact this
  · intro j hj
    have hreg := hw.region
    rw [hm', he', hq', hb',
      slotBlock_overlay_other _ _ _ _ _ _ hj (by omega) (Or.inl (by omega))]
    have := hw.other j hj
    have e : s.prevSequence + 1 - (s.prevBlock + 1) - 1
        = s.prevSequence - s.prevBlock - 1 := by omega
    rw [e]; exact this

theorem slotBlock_discard_same (mem : Nat → UInt8) (r j : Nat)
    (hj : j < blocksPerEraseblock) :
    slotBlock (Device.overlay mem (slotAddr r 0) eraseblockSize (fun _ => 0)) r j
      = fun _ => 0 := by
  apply blockAt_overlay_zero
  have h1 : blocksPerEraseblock = 256 := by decide
  have h2 : storeBlockSize = 16384 := by decide
  have h3 : eraseblockSize = 4194304 := by decide
  simp only [slotAddr, h2, h3]
  rw [h1] at hj
  omega

theorem slotBlock_discard_other (mem : Nat → UInt8) (r r2 j : Nat)
    (hj : j < blocksPerEraseblock) (hne : r ≠ r2) :
    slotBlock (Device.overlay mem (slotAddr r2 0) eraseblockSize (fun _ => 0)) r j
      = slotBlock mem r j := by
  apply blockAt_overlay_other
  have h1 : blocksPerEraseblock = 256 := by decide
  have h2 : storeBlockSize = 16384 := by decide
  have h3 : eraseblockSize = 4194304 := by decide
  simp only [slotAddr, h2, h3]
  rw [h1] at hj
  omega

theorem zero_not_accepted (q : Nat) : ¬ Accepts (fun _ => 0) q :=
  fun h => zero_not_valid h.1

theorem written_stored_switch (s : State) (p : List UInt8) (hs : s.storeFile = true)
    (he : s.prevEraseblock ≤ 1) (hp : p.length ≤ storeContentSize)
    (hq : s.prevSequence + 1 < 2 ^ 64) (h : s.prevBlock + 1 ≥ blocksPerEraseblock)
    (hnew : ∀ j, j < blocksPerEraseblock →
      ¬ Accepts (slotBlock s.dev.mem (1 - s.prevEraseblock) j) (s.prevSequence + 1))
    (hold : ∀ j, j < blocksPerEraseblock →
      ¬ Accepts (slotBlock s.dev.mem s.prevEraseblock j) s.prevSequence) :
    Written (s.stored p) := by
  obtain ⟨hq', hc', hs', _, _, _⟩ := stored_fields s p
  obtain ⟨hb', he', hm', _⟩ := stored_switch s p h
  have hqq : (s.prevSequence + 1) % 2 ^ 64 = s.prevSequence + 1 := Nat.mod_eq_of_lt hq
  rw [hqq] at hq' hm'
  have hN : blocksPerEraseblock = 256 := by decide
  have hback : 1 - (1 - s.prevEraseblock) = s.prevEraseblock := by omega
  have hne : s.prevEraseblock ≠ 1 - s.prevEraseblock := by omega
  refine ⟨hs'.trans hs, by rw [he']; omega, by rw [hb']; omega,
    by rw [hb', hq']; omega, by rw [hq']; exact hq, ?_, ?_, ?_, ?_, ?_⟩
  · intro i hi
    rw [hb'] at hi
    have : i = 0 := by omega
    subst this
    rw [hm', he', slotBlock_overlay_self _ _ _ _ _ hp]
    exact encodeBlock_valid _ _ hq hp
  · intro i hi
    rw [hb'] at hi
    have : i = 0 := by omega
    subst this
    rw [hm', he', hq', hb', slotBlock_overlay_self _ _ _ _ _ hp, encodeBlock_seq _ _ hq]
    omega
  · rw [hm', he', hb', hc', slotBlock_overlay_self _ _ _ _ _ hp]
    exact encodeBlock_content _ _ hp
  · intro j hj1 hj2
    rw [hb'] at hj1
    rw [hm', he', hq', hb',
      slotBlock_overlay_other _ _ _ _ _ _ hj2 (by omega) (Or.inr (by omega))]
    simp only [Nat.sub_zero]
    split
    · rw [slotBlock_discard_same _ _ _ hj2]
      exact zero_not_accepted _
    · exact hnew j hj2
  · intro j hj
    rw [hm', he', hq', hb', hback]
    simp only [Nat.sub_zero, Nat.add_sub_cancel]
    by_cases hj0 : j = 0
    · subst hj0
      rw [slotBlock_overlay_other _ _ _ _ _ _ hj hj (Or.inl hne)]
      split
      · rw [slotBlock_discard_other _ _ _ _ hj hne]
        exact hold 0 hj
      · exact hold 0 hj
    · rw [slotBlock_overlay_other _ _ _ _ _ _ hj (by omega) (Or.inr hj0)]
      split
      · rw [slotBlock_discard_other _ _ _ _ hj hne]
        exact hold j hj
      · exact hold j hj

theorem written_full (s : State) (hw : Written s)
    (h : s.prevBlock + 1 ≥ blocksPerEraseblock) :
    (∀ j, j < blocksPerEraseblock →
      ¬ Accepts (slotBlock s.dev.mem (1 - s.prevEraseblock) j) (s.prevSequence + 1)) ∧
    (∀ j, j < blocksPerEraseblock →
      ¬ Accepts (slotBlock s.dev.mem s.prevEraseblock j) s.prevSequence) := by
  have hb := hw.block
  constructor
  · intro j hj
    exact accepts_mono _ _ _ (by omega) (hw.other j hj)
  · intro j hj hacc
    have := hw.seq j (by omega)
    have h2 := hacc.2
    have := hw.seqLow
    omega

theorem virgin_full (s : State) (hv : Virgin s) :
    (∀ j, j < blocksPerEraseblock →
      ¬ Accepts (slotBlock s.dev.mem (1 - s.prevEraseblock) j) (s.prevSequence + 1)) ∧
    (∀ j, j < blocksPerEraseblock →
      ¬ Accepts (slotBlock s.dev.mem s.prevEraseblock j) s.prevSequence) := by
  constructor
  · intro j hj
    exact accepts_mono _ _ _ (by omega) (hv.empty _ j hj)
  · intro j hj
    exact accepts_mono _ _ _ (by omega) (hv.empty _ j hj)

/-- On a working device, a `storeData` from a consistent state leaves a
consistent state, as long as the sequence counter does not wrap. -/
theorem written_storeData (s : State) (p : List UInt8) (hw : Written s)
    (hf : ∀ n, s.dev.fault n = none) (hq : s.prevSequence + 1 < 2 ^ 64) :
    Written (storeData p s).2 := by
  by_cases hlen : p.length > storeContentSize
  · have : storeData p s = (some Err.tooBig, s) := by simp [storeData, hlen]
    rw [this]; exact hw
  · by_cases hne : p = s.prevContent
    · have : storeData p s = (none, s) := by
        simp only [storeData, hlen, if_false]
        rw [if_pos hne]
      rw [this]; exact hw
    · rw [storeData_ok s p (by omega) hne hw.storeFile hf]
      by_cases hb : s.prevBlock + 1 ≥ blocksPerEraseblock
      · obtain ⟨h1, h2⟩ := written_full s hw hb
        exact written_stored_switch s p hw.storeFile hw.region (by omega) hq hb h1 h2
      · exact written_stored_noswitch s p hw (by omega) hq hb

theorem virgin_storeData (s : State) (p : List UInt8) (hv : Virgin s)
    (hf : ∀ n, s.dev.fault n = none) :
    (Virgin (storeData p s).2 ∧ (p = [] ∨ p.length > storeContentSize)) ∨
      (Written (storeData p s).2 ∧ p ≠ [] ∧ p.length ≤ storeContentSize) := by
  by_cases hlen : p.length > storeContentSize
  · have : storeData p s = (some Err.tooBig, s) := by simp [storeData, hlen]
    rw [this]; exact Or.inl ⟨hv, Or.inr hlen⟩
  · by_cases hne : p = s.prevContent
    · have : storeData p s = (none, s) := by
        simp only [storeData, hlen, if_false]
        rw [if_pos hne]
      rw [this]; exact Or.inl ⟨hv, Or.inl (hne.trans hv.content)⟩
    · rw [storeData_ok s p (by omega) hne hv.storeFile hf]
      obtain ⟨h1, h2⟩ := virgin_full s hv
      have hN : blocksPerEraseblock = 256 := by decide
      refine Or.inr ⟨written_stored_switch s p hv.storeFile (by rw [hv.region]) (by omega)
        (by rw [hv.seq]; decide) (by rw [hv.block]; omega) h1 h2, ?_, by omega⟩
      rw [hv.content] at hne
      exact hne

/-! ## Runs of `storeData` on a working device -/

theorem storeData_working (s : State) (p : List UInt8) (hs : s.storeFile = true)
    (hd : s.dev.Reliable) :
    (storeData p s).2.dev.Reliable ∧ (storeData p s).2.prevSequence ≤ s.prevSequence + 1 ∧
      (p.length ≤ storeContentSize →
        (storeData p s).1 = none ∧ (storeData p s).2.prevContent = p) := by
  by_cases hlen : p.length > storeContentSize
  · have : storeData p s = (some Err.tooBig, s) := by simp [storeData, hlen]
    rw [this]
    exact ⟨hd, by simp, fun h => by omega⟩
  · by_cases hne : p = s.prevContent
    · have : storeData p s = (none, s) := by
        simp only [storeData, hlen, if_false]
        rw [if_pos hne]
      rw [this]
      exact ⟨hd, by simp, fun _ => ⟨rfl, hne.symm⟩⟩
    · rw [storeData_ok s p (by omega) hne hs hd.2]
      obtain ⟨hq', hc', _, hf', ho', _⟩ := stored_fields s p
      refine ⟨⟨ho'.trans hd.1, fun n => by rw [hf']; exact hd.2 n⟩, ?_, fun _ => ⟨rfl, hc'⟩⟩
      simp only
      rw [hq']
      exact Nat.mod_le _ _

theorem written_storeAll (ps : List (List UInt8)) : ∀ (s : State), Written s →
    s.dev.Reliable → s.prevSequence + ps.length < 2 ^ 64 →
    Written (storeAll s ps) ∧ (storeAll s ps).dev.Reliable := by
  induction ps with
  | nil => intro s hw hd _; exact ⟨hw, hd⟩
  | cons p ps ih =>
    intro s hw hd hq
    simp only [List.length_cons] at hq
    obtain ⟨hd', hq', _⟩ := storeData_working s p hw.storeFile hd
    exact ih (storeData p s).2 (written_storeData s p hw hd.2 (by omega)) hd' (by omega)

theorem virgin_storeAll (ps : List (List UInt8)) : ∀ (s : State), Virgin s →
    s.dev.Reliable → ps.length < 2 ^ 64 →
    ((Virgin (storeAll s ps) ∧ ∀ x ∈ ps, x = [] ∨ x.length > storeContentSize)
        ∨ Written (storeAll s ps)) ∧
      (storeAll s ps).dev.Reliable := by
  induction ps with
  | nil => intro s hv hd _; exact ⟨Or.inl ⟨hv, by simp⟩, hd⟩
  | cons p ps ih =>
    intro s hv hd hq
    simp only [List.length_cons] at hq
    obtain ⟨hd', hq', _⟩ := storeData_working s p hv.storeFile hd
    simp only [storeAll]
    rcases virgin_storeData s p hv hd.2 with ⟨hv', hp⟩ | ⟨hw', _, _⟩
    · obtain ⟨h1, h2⟩ := ih (storeData p s).2 hv' hd' (by omega)
      refine ⟨?_, h2⟩
      rcases h1 with ⟨h1, h4⟩ | h1
      · refine Or.inl ⟨h1, ?_⟩
        intro x hx
        rcases List.mem_cons.mp hx with rfl | hx
        · exact hp
        · exact h4 x hx
      · exact Or.inr h1
    · have hs := hv.seq
      obtain ⟨h1, h2⟩ := written_storeAll ps (storeData p s).2 hw' hd' (by omega)
      exact ⟨Or.inr h1, h2⟩

theorem written_loadData (s : State) (hw : Written s) (hd : s.dev.Reliable) :
    ∃ t, loadData (fresh s.dev) = some (.ok s.prevContent, t) ∧
      t.prevSequence = s.prevSequence ∧ t.prevContent = s.prevContent ∧
      t.prevEraseblock = s.prevEraseblock ∧ t.prevBlock = s.prevBlock := by
  have hb := hw.block
  have hlow := hw.seqLow
  have hseq0 : blkSeq (slotBlock s.dev.mem s.prevEraseblock 0)
      = s.prevSequence - s.prevBlock := by
    rw [hw.seq 0 (by omega)]; omega
  obtain ⟨t, ht, hq, hc, he, hbk, _⟩ := loadData_spec s.dev s.prevEraseblock
    (s.prevBlock + 1) hd hw.region (by omega) (by omega)
    (fun i hi => hw.valid i (by omega))
    (fun i j hij hj => by rw [hw.seq i (by omega), hw.seq j (by omega)]; omega)
    (by rw [hseq0]; omega)
    (fun j hj1 hj2 => by rw [hseq0]; exact hw.later j (by omega) hj2)
    (fun h => by
      rw [hseq0]
      have := hw.other 0 (by omega)
      by_contra hc
      exact this ⟨h, by omega⟩)
  simp only [Nat.add_sub_cancel] at ht hq hc hbk
  rw [hw.content] at ht hc
  rw [hw.seq _ (le_refl _)] at hq
  exact ⟨t, ht, by rw [hq]; omega, hc, he, hbk⟩

theorem loadData_noData (d : Device) (hd : d.Reliable)
    (h0 : ¬ Accepts (slotBlock d.mem 0 0) 0) (h1 : ¬ Accepts (slotBlock d.mem 1 0) 0) :
    loadData (fresh d) = some (.error Err.noData,
      ((opened d).afterRead (eraseblockSize * 0)).afterRead (eraseblockSize * 1)) := by
  have hprobe := probeRegions_none (opened d) rfl hd.2 h0 h1
  have hno : ¬ ((fresh d).storeFile = false ∧ (fresh d).dev.openErr = true) := by
    simp [fresh, hd.1]
  simp only [loadData, if_neg hno]
  have : probeRegions { fresh d with storeFile := true }
      = (.ok none, ((opened d).afterRead (eraseblockSize * 0)).afterRead
          (eraseblockSize * 1)) := hprobe
  rw [this]

theorem virgin_of_zero (d : Device) (hzero : ∀ a, d.mem a = 0) :
    Virgin (((opened d).afterRead (eraseblockSize * 0)).afterRead (eraseblockSize * 1)) := by
  refine ⟨rfl, rfl, rfl, rfl, rfl, ?_⟩
  intro r j _
  have hm : d.mem = zeroMem := funext hzero
  show ¬ Accepts (slotBlock d.mem r j) 0
  rw [hm, slotBlock_zeroMem]
  exact zero_not_accepted 0

theorem storeData_seq_le (s : State) (p : List UInt8) :
    (storeData p s).2.prevSequence ≤ s.prevSequence + 1 := by
  by_cases hlen : p.length > storeContentSize
  · have : storeData p s = (some Err.tooBig, s) := by simp [storeData, hlen]
    rw [this]; simp
  · by_cases hne : p = s.prevContent
    · have : storeData p s = (none, s) := by
        simp only [storeData, hlen, if_false]
        rw [if_pos hne]
      rw [this]; simp
    · obtain ⟨hq, _⟩ := storeData_cases s p (by omega) hne
      rw [hq]
      exact Nat.mod_le _ _

theorem storeAll_seq_le (ps : List (List UInt8)) : ∀ (s : State),
    (storeAll s ps).prevSequence ≤ s.prevSequence + ps.length := by
  induction ps with
  | nil => intro s; simp [storeAll]
  | cons p ps ih =>
    intro s
    have h1 := ih (storeData p s).2
    have h2 := storeData_seq_le s p
    simp only [storeAll, List.length_cons]
    omega

/-! ## Round trip and region rotation -/

/-- C1, counterexample. On an all-zero device `loadData` finds no data; storing
the empty payload then returns success without writing anything, because the
empty payload equals the initial cache; a fresh `loadData` on the resulting
device returns `errNoData` instead of the payload. -/
theorem store_empty_not_persisted :
    (loadData (fresh (goodDevice zeroMem true))).map (fun r => r.1)
        = some (.error Err.noData) ∧
      ([] : List UInt8).length ≤ storeContentSize ∧
      (storeData [] (loadedState (goodDevice zeroMem true))).1 = none ∧
      (loadData (fresh (storeData [] (loadedState (goodDevice zeroMem true))).2.dev)).map
          (fun r => r.1) = some (.error Err.noData) := by
  decide!

/-- C1 (amended). Start from an all-zero device on which no operation fails,
run `loadData` (it reports `errNoData`) and then any sequence of fewer than
2^64 - 1 `storeData` calls. For every payload `p` of at most 16352 bytes such
that `p` is non-empty or some non-empty payload that fits was stored before,
`storeData p` returns success and `loadData` from the fresh state on the
resulting device image returns exactly `p`. -/
theorem store_load_roundtrip (d : Device) (ps : List (List UInt8)) (p : List UInt8)
    (hzero : ∀ a, d.mem a = 0) (hd : d.Reliable) (hcount : ps.length + 1 < 2 ^ 64)
    (hp : p.length ≤ storeContentSize)
    (hw : p ≠ [] ∨ ∃ x ∈ ps, x ≠ [] ∧ x.length ≤ storeContentSize) :
    ∃ t0, loadData (fresh d) = some (.error Err.noData, t0) ∧
      (storeData p (storeAll t0 ps)).1 = none ∧
      ∃ t, loadData (fresh (storeData p (storeAll t0 ps)).2.dev) = some (.ok p, t) := by
  have hv0 := virgin_of_zero d hzero
  have hd0 : (((opened d).afterRead (eraseblockSize * 0)).afterRead
      (eraseblockSize * 1)).dev.Reliable := hd
  refine ⟨_, loadData_noData d hd (hv0.empty 0 0 (by decide)) (hv0.empty 1 0 (by decide)),
    ?_⟩
  generalize ((opened d).afterRead (eraseblockSize * 0)).afterRead (eraseblockSize * 1) = t0
    at hv0 hd0
  obtain ⟨hinv, hd1⟩ := virgin_storeAll ps t0 hv0 hd0 (by omega)
  have hq1 := storeAll_seq_le ps t0
  rw [hv0.seq] at hq1
  have hsf : (storeAll t0 ps).storeFile = true := by
    rcases hinv with ⟨h, _⟩ | h
    · exact h.storeFile
    · exact h.storeFile
  obtain ⟨hd2, _, hres⟩ := storeData_working (storeAll t0 ps) p hsf hd1
  obtain ⟨hok, hcont⟩ := hres hp
  have hw2 : Written (storeData p (storeAll t0 ps)).2 := by
    rcases hinv with ⟨hv1, hall⟩ | hw1
    · rcases virgin_storeData (storeAll t0 ps) p hv1 hd1.2 with ⟨_, hp2⟩ | ⟨h, _, _⟩
      · exfalso
        rcases hw with hw | ⟨x, hx, hx1, hx2⟩
        · rcases hp2 with h | h
          · exact hw h
          · omega
        · rcases hall x hx with h | h
          · exact hx1 h
          · omega
      · exact h
    · exact written_storeData _ p hw1 hd1.2 (by omega)
  obtain ⟨t, ht, _⟩ := written_loadData _ hw2 hd2
  rw [hcont] at ht
  exact ⟨hok, t, ht⟩

/-- Witness for C1 (amended): payloads `[1]`, `[2]`, then `[3]` on the all-zero
device. -/
theorem store_load_roundtrip_witness :
    ∃ t0, loadData (fresh (goodDevice zeroMem true)) = some (.error Err.noData, t0) ∧
      (storeData [3] (storeAll t0 [[1], [2]])).1 = none ∧
      ∃ t, loadData (fresh (storeData [3] (storeAll t0 [[1], [2]])).2.dev)
        = some (.ok [3], t) :=
  store_load_roundtrip (goodDevice zeroMem true) [[1], [2]] [3] (fun _ => rfl)
    ⟨rfl, fun _ => rfl⟩ (by decide) (by decide) (Or.inl (by decide))

theorem changing_append (prev : List UInt8) (ps : List (List UInt8)) (p : List UInt8) :
    Changing prev (ps ++ [p]) →
      Changing prev ps ∧ p ≠ lastOf prev ps ∧ p.length ≤ storeContentSize := by
  induction ps generalizing prev with
  | nil =>
    intro h
    simp only [List.nil_append, Changing] at h
    exact ⟨trivial, h.1, h.2.1⟩
  | cons x xs ih =>
    intro h
    simp only [List.cons_append, Changing] at h
    obtain ⟨h1, h2, h3⟩ := ih x h.2.2
    exact ⟨⟨h.1, h.2.1, h1⟩, h2, h3⟩

/-- A run of payload-changing `storeData` calls on a working device: every call
succeeds and writes one block, the sequence counter counts the calls and the
cursor walks through the 512 slots of the two regions. -/
theorem changing_storeAll (ps : List (List UInt8)) : ∀ (s : State), (Virgin s ∨ Written s) →
    s.dev.Reliable → Changing s.prevContent ps → s.prevSequence + ps.length < 2 ^ 64 →
    (Virgin (storeAll s ps) ∨ Written (storeAll s ps)) ∧ (storeAll s ps).dev.Reliable ∧
      (storeAll s ps).prevSequence = s.prevSequence + ps.length ∧
      (storeAll s ps).prevEraseblock * 256 + (storeAll s ps).prevBlock
        = (s.prevEraseblock * 256 + s.prevBlock + ps.length) % 512 ∧
      (storeAll s ps).prevContent = lastOf s.prevContent ps ∧
      (∀ r ∈ storeResults s ps, r = none) ∧
      countWrites (storeAll s ps).dev.log = countWrites s.dev.log + ps.length := by
  have hN : blocksPerEraseblock = 256 := by decide
  induction ps with
  | nil =>
    intro s hinv hd _ _
    have hpos : s.prevEraseblock ≤ 1 ∧ s.prevBlock < 256 := by
      rcases hinv with h | h
      · rw [h.region, h.block]; decide
      · exact ⟨h.region, by have := h.block; omega⟩
    refine ⟨hinv, hd, rfl, ?_, rfl, by simp [storeResults], rfl⟩
    simp only [storeAll, List.length_nil]
    omega
  | cons p ps ih =>
    intro s hinv hd hch hq
    simp only [List.length_cons] at hq
    obtain ⟨hne, hlen, hch'⟩ := hch
    have hpos : s.prevEraseblock ≤ 1 ∧ s.prevBlock < 256 := by
      rcases hinv with h | h
      · rw [h.region, h.block]; decide
      · exact ⟨h.region, by have := h.block; omega⟩
    have hsf : s.storeFile = true := by
      rcases hinv with h | h
      · exact h.storeFile
      · exact h.storeFile
    have hsd := storeData_ok s p hlen hne hsf hd.2
    obtain ⟨hq', hc', _, hf', ho', _⟩ := stored_fields s p
    have hw' : Written (s.stored p) := by
      rcases hinv with h | h
      · rcases virgin_storeData s p h hd.2 with ⟨_, h2⟩ | ⟨h2, _, _⟩
        · exfalso
          rcases h2 with h2 | h2
          · rw [h.content] at hne; exact hne h2
          · omega
        · rw [hsd] at h2; exact h2
      · have := written_storeData s p h hd.2 (by omega)
        rw [hsd] at this; exact this
    have hd' : (s.stored p).dev.Reliable :=
      ⟨ho'.trans hd.1, fun n => by rw [hf']; exact hd.2 n⟩
    have hqq : (s.stored p).prevSequence = s.prevSequence + 1 := by
      rw [hq']; exact Nat.mod_eq_of_lt (by omega)
    obtain ⟨h1, h2, h3, h4, h5, h6, h7⟩ := ih (s.stored p) (Or.inr hw') hd'
      (by rw [hc']; exact hch') (by rw [hqq]; omega)
    have hcur : (s.stored p).prevEraseblock * 256 + (s.stored p).prevBlock
        = (s.prevEraseblock * 256 + s.prevBlock + 1) % 512 ∧
        countWrites (s.stored p).dev.log = countWrites s.dev.log + 1 := by
      by_cases hb : s.prevBlock + 1 ≥ blocksPerEraseblock
      · obtain ⟨hb', he', _, hl'⟩ := stored_switch s p hb
        rw [hb', he', hl', countWrites_append]
        refine ⟨by omega, ?_⟩
        simp [countWrites]
      · obtain ⟨hb', he', _, hl'⟩ := stored_noswitch s p hb
        rw [hb', he', hl', countWrites_append]
        refine ⟨by omega, ?_⟩
        simp [countWrites]
    simp only [storeAll, storeResults, List.length_cons, lastOf]
    rw [hsd]
    simp only
    refine ⟨h1, h2, by rw [h3, hqq]; omega, ?_, by rw [h5, hc'], ?_, by rw [h7, hcur.2]; omega⟩
    · rw [h4, hcur.1]
      omega
    · intro r hr
      rcases List.mem_cons.mp hr with rfl | hr
      · rfl
      · exact h6 r hr

/-- C5. Start from `loadData` on an all-zero device on which no operation
fails, and make `256 * m` (`m ≥ 1`) `storeData` calls that each change the
payload: all succeed, each writes one block, and the cursor ends on slot 255 of
region `1 - m % 2`. The next payload-changing `storeData` then issues a discard
over the whole other region `m % 2` (4 MiB at address `4 MiB * (m % 2)`),
writes its block at slot 0 of that region with sequence number `256 * m + 1`
and syncs; a following `loadData` from the fresh state selects that region
(`prevEraseblock = m % 2`, `prevBlock = 0`) and returns the latest payload.
For `m = 1` this is the rotation from region 0 to region 1 (bytes 4 MiB to
8 MiB, address 4194304, sequence 257), for `m = 2` the rotation back to
region 0. -/
theorem region_rotation (d : Device) (m : Nat) (ps : List (List UInt8)) (p : List UInt8)
    (hzero : ∀ a, d.mem a = 0) (hd : d.Reliable) (hm : 1 ≤ m)
    (hlen : ps.length = blocksPerEraseblock * m) (hcount : ps.length + 1 < 2 ^ 64)
    (hch : Changing [] (ps ++ [p])) :
    ∃ t0, loadData (fresh d) = some (.error Err.noData, t0) ∧
      (∀ r ∈ storeResults t0 ps, r = none) ∧
      countWrites (storeAll t0 ps).dev.log = countWrites t0.dev.log + 256 * m ∧
      (storeAll t0 ps).prevBlock = 255 ∧ (storeAll t0 ps).prevEraseblock = 1 - m % 2 ∧
      (storeData p (storeAll t0 ps)).1 = none ∧
      (storeData p (storeAll t0 ps)).2.dev.log = (storeAll t0 ps).dev.log ++
        [Op.discard (eraseblockSize * (m % 2)) eraseblockSize,
          Op.write (eraseblockSize * (m % 2)) (encodeBlock (256 * m + 1) p), Op.sync] ∧
      blkSeq (encodeBlock (256 * m + 1) p) = 256 * m + 1 ∧
      ∃ t, loadData (fresh (storeData p (storeAll t0 ps)).2.dev) = some (.ok p, t) ∧
        t.prevEraseblock = m % 2 ∧ t.prevBlock = 0 := by
  have hN : blocksPerEraseblock = 256 := by decide
  rw [hN] at hlen
  have hv0 := virgin_of_zero d hzero
  have hd0 : (((opened d).afterRead (eraseblockSize * 0)).afterRead
      (eraseblockSize * 1)).dev.Reliable := hd
  refine ⟨_, loadData_noData d hd (hv0.empty 0 0 (by decide)) (hv0.empty 1 0 (by decide)),
    ?_⟩
  generalize ((opened d).afterRead (eraseblockSize * 0)).afterRead (eraseblockSize * 1) = t0
    at hv0 hd0
  obtain ⟨hch1, hpne, hplen⟩ := changing_append [] ps p hch
  obtain ⟨hinv, hd1, hq1, hcur, hcont, hres, hcw⟩ := changing_storeAll ps t0 (Or.inl hv0) hd0
    (by rw [hv0.content]; exact hch1) (by rw [hv0.seq]; omega)
  rw [hv0.seq] at hq1
  rw [hv0.region, hv0.block, hN] at hcur
  rw [hv0.content] at hcont
  have hw1 : Written (storeAll t0 ps) := by
    rcases hinv with h | h
    · have := h.seq
      omega
    · exact h
  have hb1 := hw1.block
  have he1 := hw1.region
  rw [hN] at hb1
  have hbe : (storeAll t0 ps).prevBlock = 255 ∧ (storeAll t0 ps).prevEraseblock = 1 - m % 2 := by
    omega
  have hsw : (storeAll t0 ps).prevBlock + 1 ≥ blocksPerEraseblock := by rw [hbe.1, hN]
  have hsd := storeData_ok (storeAll t0 ps) p hplen (by rw [hcont]; exact hpne)
    hw1.storeFile hd1.2
  have hw2 := written_storeData (storeAll t0 ps) p hw1 hd1.2 (by omega)
  obtain ⟨hd2, _, _⟩ := storeData_working (storeAll t0 ps) p hw1.storeFile hd1
  obtain ⟨t, ht, _, _, hte, htb⟩ := written_loadData _ hw2 hd2
  rw [hsd] at ht hte htb ⊢
  obtain ⟨_, hc', _, _, _, _⟩ := stored_fields (storeAll t0 ps) p
  obtain ⟨hb', he', _, hl'⟩ := stored_switch (storeAll t0 ps) p hsw
  have hreg : 1 - (storeAll t0 ps).prevEraseblock = m % 2 := by omega
  have hseq : ((storeAll t0 ps).prevSequence + 1) % 2 ^ 64 = 256 * m + 1 := by
    rw [hq1, Nat.mod_eq_of_lt (by omega)]
    omega
  rw [hreg, slotAddr_zero, hseq] at hl'
  refine ⟨hres, by rw [hcw]; omega, hbe.1, hbe.2, rfl, hl',
    encodeBlock_seq _ _ (by omega), t, ?_, ?_, ?_⟩
  · rw [hc'] at ht; exact ht
  · rw [hte, he', hreg]
  · rw [htb, hb']

/-- Witness for C5: the first rotation (`m = 1`), after the 256 payloads
`[0, 1], [1, 1], ..., [255, 1]`, with `[7]` as the next payload. -/
theorem region_rotation_witness :
    ∃ t0, loadData (fresh (goodDevice zeroMem true)) = some (.error Err.noData, t0) ∧
      (∀ r ∈ storeResults t0 fillPayloads, r = none) ∧
      countWrites (storeAll t0 fillPayloads).dev.log = countWrites t0.dev.log + 256 * 1 ∧
      (storeAll t0 fillPayloads).prevBlock = 255 ∧
      (storeAll t0 fillPayloads).prevEraseblock = 1 - 1 % 2 ∧
      (storeData [7] (storeAll t0 fillPayloads)).1 = none ∧
      (storeData [7] (storeAll t0 fillPayloads)).2.dev.log
        = (storeAll t0 fillPayloads).dev.log ++
          [Op.discard (eraseblockSize * (1 % 2)) eraseblockSize,
            Op.write (eraseblockSize * (1 % 2)) (encodeBlock (256 * 1 + 1) [7]), Op.sync] ∧
      blkSeq (encodeBlock (256 * 1 + 1) [7]) = 256 * 1 + 1 ∧
      ∃ t, loadData (fresh (storeData [7] (storeAll t0 fillPayloads)).2.dev)
          = some (.ok [7], t) ∧
        t.prevEraseblock = 1 % 2 ∧ t.prevBlock = 0 :=
  region_rotation (goodDevice zeroMem true) 1 fillPayloads [7] (fun _ => rfl)
    ⟨rfl, fun _ => rfl⟩ (by decide) (by decide!) (by decide!) (by decide!)

end Storage
